import Mathlib

/-!
Shallow embedding of the s3-upload-cleaner program (src/main.go).

The program is a garbage collector over an S3-compatible store:
a driver (`main`) paginates a grouped root listing and, per discovered
repository prefix, runs `cleanMPUs` (abort stale multipart uploads) and,
once per page and only in live mode, `cleanUploadFolders` (delete stale
upload-folder trees identified by a `startedat` marker object).

Strings are modelled as `List Char`; the store's responses are modelled
as page lists; effects (aborts, deletions, gets, selections) are traces
of `Event`s; a nil-pointer dereference or a Go `panic` is modelled by
the embedded function returning `none`.
-/

abbrev Str := List Char

/-! ### Go string helpers (strings.Split / strings.Join / Contains / HasSuffix) -/

/-- Models Go `strings.Split(s, "/")` (single-character separator case):
splits at every separator, keeping empty fields; `Split("", sep) = [""]`. -/
def splitOnChar (sep : Char) : Str → List Str
  | [] => [[]]
  | c :: rest =>
    let r := splitOnChar sep rest
    if c = sep then [] :: r
    else
      match r with
      | [] => [[c]]
      | g :: gs => (c :: g) :: gs

/-- Models Go `strings.Join(parts, "/")` (single-character separator case). -/
def joinSep (sep : Char) : List Str → Str
  | [] => []
  | [g] => g
  | g :: gs => g ++ sep :: joinSep sep gs

/-- Models `strings.Join(keyParts[0:len(keyParts)-1], "/")` after
`keyParts := strings.Split(prefix, "/")` (main.go lines 191-192): the
marker key with its last `/`-delimited segment dropped. -/
def dropLastSegment (k : Str) : Str :=
  joinSep '/' ((splitOnChar '/' k).dropLast)

/-- Boolean string-prefix test (plain S3 key-prefix matching). -/
def hasPfx (p k : Str) : Bool := List.isPrefixOf p k

/-- Models Go `strings.Contains(s, pat)`: some tail of `s` starts with `pat`. -/
def containsSub (pat : Str) : Str → Bool
  | [] => List.isPrefixOf pat []
  | c :: rest => List.isPrefixOf pat (c :: rest) || containsSub pat rest

/-- Candidate test of main.go line 167:
`strings.Contains(key, "/_uploads/") && strings.HasSuffix(key, "/startedat")`. -/
def candidateMarker (k : Str) : Bool :=
  containsSub ("/_uploads/".toList) k && List.isSuffixOf ("/startedat".toList) k

/-! ### Marker parser and time source

`parseTimeFromStream` (main.go lines 262-272) reads the whole stream and
calls Go `time.Parse(startedadDateFormat, s)` with the fixed layout
`"2006-01-02T15:04:05Z"`.  In that layout every chunk is fixed-width and
the trailing `Z` is a literal (it is not followed by a zone pattern), so
`time.Parse` accepts exactly strings of the shape `YYYY-MM-DDTHH:MM:SSZ`,
fully consumed, with the same range checks Go performs (month 1-12, day
1-daysIn(month,year) with leap years, hour 0-23, minute/second 0-59),
and interprets them as UTC.  The embedding parses digits exactly as Go's
`getnum` does (characters `'0'`-`'9'`, fixed width). -/

/-- The fixed layout constant of main.go line 22. -/
def startedadDateFormat : String := "2006-01-02T15:04:05Z"

/-- One parsed timestamp: proleptic-Gregorian calendar fields, as Go's
`time.Time` presents them for this layout (UTC, whole seconds). -/
structure DateTime where
  year : Nat
  month : Nat
  day : Nat
  hour : Nat
  minute : Nat
  second : Nat
deriving DecidableEq, Repr

/-- Go leap-year rule (`time.isLeap`). -/
def isLeap (y : Nat) : Bool := y % 4 == 0 && (y % 100 != 0 || y % 400 == 0)

/-- Days in a month, as Go's `time.daysIn`. -/
def daysInMonth (y m : Nat) : Nat :=
  if m = 2 then (if isLeap y then 29 else 28)
  else if m = 4 ∨ m = 6 ∨ m = 9 ∨ m = 11 then 30
  else 31

/-- The validity checks Go's `time.Parse` performs on this layout
(4-digit year, ranged month/day/hour/minute/second). -/
def validDT (t : DateTime) : Prop :=
  t.year ≤ 9999 ∧ 1 ≤ t.month ∧ t.month ≤ 12 ∧ 1 ≤ t.day ∧
    t.day ≤ daysInMonth t.year t.month ∧ t.hour ≤ 23 ∧ t.minute ≤ 59 ∧ t.second ≤ 59

instance : DecidablePred validDT := fun _ => by unfold validDT; infer_instance

/-- Digit value of a character, as Go's parser accepts digits
(`'0' <= c && c <= '9'`, value `c - '0'`). -/
def digitVal (c : Char) : Option Nat :=
  if 48 ≤ c.toNat ∧ c.toNat ≤ 57 then some (c.toNat - 48) else none

/-- The decimal digit character for a value below ten. -/
def digitChar : Nat → Char
  | 0 => '0' | 1 => '1' | 2 => '2' | 3 => '3' | 4 => '4'
  | 5 => '5' | 6 => '6' | 7 => '7' | 8 => '8' | 9 => '9'
  | _ => '*'

/-- Read a fixed-width 2-digit number (Go `getnum` with fixed width). -/
def rd2 : Str → Option (Nat × Str)
  | c1 :: c2 :: rest =>
    match digitVal c1, digitVal c2 with
    | some a, some b => some (10 * a + b, rest)
    | _, _ => none
  | _ => none

/-- Read a fixed-width 4-digit number (Go year chunk `2006`). -/
def rd4 : Str → Option (Nat × Str)
  | c1 :: c2 :: c3 :: c4 :: rest =>
    match digitVal c1, digitVal c2, digitVal c3, digitVal c4 with
    | some a, some b, some c, some d => some (1000 * a + 100 * b + 10 * c + d, rest)
    | _, _, _, _ => none
  | _ => none

/-- Consume one literal layout character. -/
def lit (c : Char) : Str → Option Str
  | c' :: rest => if c' = c then some rest else none
  | _ => none

/-- Go `time.Parse("2006-01-02T15:04:05Z", s)`: fixed-shape parse with
Go's range checks; `none` models the returned parse error. -/
def parseTimestamp (s : Str) : Option DateTime :=
  match rd4 s with
  | none => none
  | some (y, s) =>
    match lit '-' s with
    | none => none
    | some s =>
      match rd2 s with
      | none => none
      | some (mo, s) =>
        match lit '-' s with
        | none => none
        | some s =>
          match rd2 s with
          | none => none
          | some (d, s) =>
            match lit 'T' s with
            | none => none
            | some s =>
              match rd2 s with
              | none => none
              | some (h, s) =>
                match lit ':' s with
                | none => none
                | some s =>
                  match rd2 s with
                  | none => none
                  | some (mi, s) =>
                    match lit ':' s with
                    | none => none
                    | some s =>
                      match rd2 s with
                      | none => none
                      | some (sec, s) =>
                        match lit 'Z' s with
                        | none => none
                        | some s =>
                          -- time.Parse requires the value fully consumed
                          if s = [] then
                            let t : DateTime := ⟨y, mo, d, h, mi, sec⟩
                            if validDT t then some t else none
                          else none

/-- `parseTimeFromStream` (main.go lines 262-272): the stream is read in
full into a buffer and parsed with the fixed layout; a read error is
handled by the caller (`hoursSinceUploadStarted`), so the embedding takes
the already-read bytes. -/
def parseTimeFromStream (bytes : Str) : Option DateTime :=
  parseTimestamp bytes

/-- Two-digit zero-padded rendering (Go `Format` chunk `01`/`02`/...). -/
def pad2 (n : Nat) : Str := [digitChar (n / 10), digitChar (n % 10)]

/-- Four-digit zero-padded rendering (Go `Format` chunk `2006`). -/
def pad4 (n : Nat) : Str :=
  [digitChar (n / 1000), digitChar (n / 100 % 10), digitChar (n / 10 % 10), digitChar (n % 10)]

/-- Go `t.Format("2006-01-02T15:04:05Z")` for a UTC time `t`: what a
well-formed `startedat` marker contains. -/
def formatTimestamp (t : DateTime) : Str :=
  pad4 t.year ++ ('-' :: (pad2 t.month ++ ('-' :: (pad2 t.day ++
    ('T' :: (pad2 t.hour ++ (':' :: (pad2 t.minute ++ (':' :: (pad2 t.second ++ ['Z']))))))))))

/-! ### Time source -/

/-- Leap years in `[0, y)` (proleptic Gregorian, year 0 is a leap year). -/
def leapsBefore (y : Nat) : Nat := (y + 3) / 4 - (y + 99) / 100 + (y + 399) / 400

/-- Days from 0000-01-01 to `y`-01-01. -/
def daysFromYear0 (y : Nat) : Nat := 365 * y + leapsBefore y

/-- Days from `y`-01-01 to `y`-`m`-01. -/
def daysBeforeMonth (y m : Nat) : Nat :=
  (List.range (m - 1)).foldl (fun a i => a + daysInMonth y (i + 1)) 0

/-- Unix epoch seconds of a `DateTime` (Go `time.Time` absolute-time
arithmetic on the same proleptic-Gregorian calendar). -/
def toSecs (t : DateTime) : Int :=
  ((daysFromYear0 t.year + daysBeforeMonth t.year t.month + (t.day - 1) : Nat) : Int) * 86400
    - 719528 * 86400
    + t.hour * 3600 + t.minute * 60 + t.second

/-- `int(d.Hours())` for a duration of `secs` seconds: truncation toward
zero, as Go's float-to-int conversion does. -/
def hoursSince (secs : Int) : Int := secs.tdiv 3600

/-! ### Configuration, events and store state

The source reads a global `opts` struct; the embedding passes the two
fields the core reads (`CleanupHours`, `DryRun`) explicitly.  Every
store call the scan issues is recorded as an `Event`; `selectMPU` and
`selectFolder` record the selection log lines the source prints inside
the threshold branch (main.go lines 129 and 175). -/

/-- The fields of the global `opts` struct the core algorithm reads. -/
structure Config where
  cleanupHours : Int
  dryRun : Bool
deriving DecidableEq, Repr

/-- The page-size constant of main.go line 35. -/
def MaxResultCount : Nat := 1000

/-- Observable actions of one run. -/
inductive Event where
  | callCleanMPUs (pfx : Str)
  | callCleanUploadFolders (pfx : Str)
  | selectMPU (bucket key uploadId : Str)
  | abortCall (bucket key uploadId : Str) (ok : Bool)
  | selectFolder (bucket key : Str)
  | getObject (bucket key : Str)
  | deleteObject (bucket key : Str)
deriving DecidableEq, Repr

/-- The store state destructive calls act on: object keys present and
in-progress multipart uploads (key, uploadId). -/
structure StoreState where
  objects : List Str
  mpus : List (Str × Str)
deriving DecidableEq, Repr

/-- Effect of one event on the store: `deleteObject` removes the key, a
successful `abortCall` removes the upload, everything else is a read. -/
def applyEvent (st : StoreState) : Event → StoreState
  | .deleteObject _ k => { st with objects := st.objects.filter (fun o => decide (o ≠ k)) }
  | .abortCall _ k uid ok =>
    if ok then { st with mpus := st.mpus.filter (fun m => decide (m ≠ (k, uid))) } else st
  | _ => st

/-- Effect of a whole trace on the store. -/
def applyEvents (st : StoreState) (evs : List Event) : StoreState :=
  evs.foldl applyEvent st

/-! ### Multipart-Upload Reaper (`cleanMPUs`, main.go lines 97-148) -/

/-- One record of a `ListMultipartUploads` response.  `elapsedSeconds`
is `now - *multi.Initiated` in whole seconds, so
`hoursSince elapsedSeconds` models `int(time.Since(*multi.Initiated).Hours())`
of main.go line 124. -/
structure MPU where
  key : Str
  uploadId : Str
  elapsedSeconds : Int
deriving DecidableEq, Repr

/-- One page of a `ListMultipartUploads` response.  `nextKeyMarker`
models the possibly-nil `NextKeyMarker` pointer. -/
structure MPUPage where
  uploads : List MPU
  nextKeyMarker : Option Str
  isTruncated : Bool
deriving DecidableEq, Repr

/-- The loop body of main.go lines 121-143 for one upload record: if the
truncated age meets the threshold, print the selection line
(`selectMPU`), in live mode issue the abort (recording the store's
success flag; on failure only an error line is printed), and increment
`totalRemoved` — the increment is outside the error check, so it happens
in both modes and regardless of the abort outcome. -/
def processMPU (cfg : Config) (bucket : Str) (abortOk : Str → Str → Bool) (m : MPU) :
    Nat × List Event :=
  if cfg.cleanupHours ≤ hoursSince m.elapsedSeconds then
    if cfg.dryRun then
      (1, [Event.selectMPU bucket m.key m.uploadId])
    else
      (1, [Event.selectMPU bucket m.key m.uploadId,
           Event.abortCall bucket m.key m.uploadId (abortOk m.key m.uploadId)])
  else (0, [])

/-- The `for i, multi := range resp.Uploads` loop over one page's records. -/
def processMPUList (cfg : Config) (bucket : Str) (abortOk : Str → Str → Bool) :
    List MPU → Nat × List Event
  | [] => (0, [])
  | m :: rest =>
    let r := processMPU cfg bucket abortOk m
    let r' := processMPUList cfg bucket abortOk rest
    (r.1 + r'.1, r.2 ++ r'.2)

/-- `cleanMPUs` (main.go lines 97-148): paginate `ListMultipartUploads`.
`pages` is the sequence of responses the store serves for the repeated
requests.  Line 114 dereferences `*resp.NextKeyMarker` unconditionally —
before the records are processed and even on the final page — so a `none`
marker is a nil-pointer panic, modelled as `none`.  `none` is also
returned if the store stops serving pages while the loop still asks
(excluded by well-formedness hypotheses). -/
def cleanMPUs (cfg : Config) (bucket : Str) (abortOk : Str → Str → Bool) :
    List MPUPage → Option (Nat × List Event)
  | [] => none
  | p :: rest =>
    match p.nextKeyMarker with
    | none => none
    | some _ =>
      let r := processMPUList cfg bucket abortOk p.uploads
      if p.isTruncated then
        match cleanMPUs cfg bucket abortOk rest with
        | none => none
        | some r' => some (r.1 + r'.1, r.2 ++ r'.2)
      else some r

/-! ### Upload-Folder Reaper (`cleanUploadFolders`, main.go lines 150-216) -/

/-- Result of `hoursSinceUploadStarted` (main.go lines 243-260):
a `GetObject` failure is returned to the caller (`geterr`), but a parse
failure hits `panic(err)` on line 256 (`panicked`); on success the age is
`int(time.Since(t).Hours())`. -/
inductive HoursResult where
  | panicked
  | geterr
  | ok (h : Int)
deriving DecidableEq, Repr

/-- `hoursSinceUploadStarted` (main.go lines 243-260).  `gets` is the
store's `GetObject` behaviour (`none` = error); `now` is the current
time in epoch seconds. -/
def hoursSinceUploadStarted (gets : Str → Option Str) (now : Int) (key : Str) : HoursResult :=
  match gets key with
  | none => .geterr
  | some content =>
    match parseTimeFromStream content with
    | none => .panicked
    | some t => .ok (hoursSince (now - toSecs t))

/-- `removeUploadFolder` (main.go lines 190-216): drop the marker key's
last `/`-segment, issue ONE `ListObjectsV2` call for that prefix (no
`MaxKeys`, no continuation loop — `IsTruncated` is ignored), and delete
each returned object.  `listFolder` is the store's single-page answer;
the source panics on a listing or delete error, which is not modelled
(the claims about this function assume the calls succeed). -/
def removeUploadFolder (listFolder : Str → List Str) (bucket key : Str) : List Event :=
  (listFolder (dropLastSegment key)).map (fun o => Event.deleteObject bucket o)

/-- One page of a `ListObjectsV2` response (flat listing). -/
structure ObjPage where
  contents : List Str
  nextContinuationToken : Option Str
  isTruncated : Bool
deriving DecidableEq, Repr

/-- The `for _, o := range objs.Contents` loop body of main.go lines
166-183: for each candidate marker, fetch and age it; a get error is
printed and the candidate skipped (`continue`); a parse failure inside
`hoursSinceUploadStarted` panics the process (`none`); an old-enough
marker is selected (line 175's log) and, when not dry-run, its folder
removed. -/
def processObjs (cfg : Config) (bucket : Str) (now : Int) (gets : Str → Option Str)
    (listFolder : Str → List Str) : List Str → Option (List Event)
  | [] => some []
  | k :: rest =>
    if candidateMarker k then
      match hoursSinceUploadStarted gets now k with
      | .panicked => none
      | .geterr =>
        (processObjs cfg bucket now gets listFolder rest).map
          (fun tr => Event.getObject bucket k :: tr)
      | .ok h =>
        if cfg.cleanupHours ≤ h then
          if cfg.dryRun then
            (processObjs cfg bucket now gets listFolder rest).map
              (fun tr => Event.getObject bucket k :: Event.selectFolder bucket k :: tr)
          else
            (processObjs cfg bucket now gets listFolder rest).map
              (fun tr => Event.getObject bucket k :: Event.selectFolder bucket k ::
                (removeUploadFolder listFolder bucket k ++ tr))
        else
          (processObjs cfg bucket now gets listFolder rest).map
            (fun tr => Event.getObject bucket k :: tr)
    else processObjs cfg bucket now gets listFolder rest

/-- `cleanUploadFolders` (main.go lines 150-188): paginate the flat
`ListObjectsV2` listing.  The continuation token is assigned without a
dereference and `shouldContinue = *objs.IsTruncated` ends the loop on
the first untruncated page. -/
def cleanUploadFolders (cfg : Config) (bucket : Str) (now : Int)
    (gets : Str → Option Str) (listFolder : Str → List Str) :
    List ObjPage → Option (List Event)
  | [] => none
  | p :: rest =>
    match processObjs cfg bucket now gets listFolder p.contents with
    | none => none
    | some tr =>
      if p.isTruncated then
        match cleanUploadFolders cfg bucket now gets listFolder rest with
        | none => none
        | some tr' => some (tr ++ tr')
      else some tr

/-! ### Repository Scanner driver (`main`, main.go lines 60-95) -/

/-- One page of the grouped root `ListObjects` response.  `nextMarker`
models the possibly-nil `NextMarker` pointer; the `Prefix` field the
source also dereferences (line 87) is the echo of the request prefix and
is modelled by the request prefix itself. -/
structure RootPage where
  commonPrefixes : List Str
  nextMarker : Option Str
  isTruncated : Bool
deriving DecidableEq, Repr

/-- The store's behaviour, one component per API the program calls. -/
structure StoreModel where
  rootPages : List RootPage
  mpuPages : Str → List MPUPage
  abortOk : Str → Str → Bool
  objPages : Str → List ObjPage
  gets : Str → Option Str
  listFolder : Str → List Str

/-- The `for i, cp := range objs.CommonPrefixes` loop of main.go lines
81-86: per common prefix, log it and run `cleanMPUs`, summing the counts. -/
def processPrefixes (cfg : Config) (bucket : Str) (sm : StoreModel) :
    List Str → Option (Nat × List Event)
  | [] => some (0, [])
  | p :: ps =>
    match cleanMPUs cfg bucket sm.abortOk (sm.mpuPages p) with
    | none => none
    | some r =>
      match processPrefixes cfg bucket sm ps with
      | none => none
      | some r' => some (r.1 + r'.1, (Event.callCleanMPUs p :: r.2) ++ r'.2)

/-- The per-page body of the driver loop (main.go lines 81-90): process
every common prefix, then — only when not dry-run — invoke
`cleanUploadFolders` once, with `*objs.Prefix`, i.e. the ROOT listing
prefix, not a common-prefix entry. -/
def pageStep (cfg : Config) (bucket rootPfx : Str) (now : Int) (sm : StoreModel)
    (p : RootPage) : Option (Nat × List Event) :=
  match processPrefixes cfg bucket sm p.commonPrefixes with
  | none => none
  | some r =>
    if cfg.dryRun then some r
    else
      match cleanUploadFolders cfg bucket now sm.gets sm.listFolder (sm.objPages rootPfx) with
      | none => none
      | some ftr => some (r.1, r.2 ++ Event.callCleanUploadFolders rootPfx :: ftr)

/-- The driver pagination loop of main.go lines 60-91.  Lines 75-79 read
`*objs.IsTruncated` and, ONLY when the page is truncated, dereference
`*objs.NextMarker` (a `none` cursor on a truncated page is a nil-pointer
panic); this happens before the page's prefixes are processed. -/
def mainLoop (cfg : Config) (bucket rootPfx : Str) (now : Int) (sm : StoreModel) :
    List RootPage → Option (Nat × List Event)
  | [] => none
  | p :: rest =>
    if p.isTruncated then
      match p.nextMarker with
      | none => none
      | some _ =>
        match pageStep cfg bucket rootPfx now sm p with
        | none => none
        | some r =>
          match mainLoop cfg bucket rootPfx now sm rest with
          | none => none
          | some r' => some (r.1 + r'.1, r.2 ++ r'.2)
    else pageStep cfg bucket rootPfx now sm p

/-- The whole run: drive `mainLoop` over the store's root pages and
report `totalRemoved` (main.go lines 47, 60-93). -/
def mainRun (cfg : Config) (bucket rootPfx : Str) (now : Int) (sm : StoreModel) :
    Option (Nat × List Event) :=
  mainLoop cfg bucket rootPfx now sm sm.rootPages

/-! ### Well-formed page sequences and trace classifiers -/

/-- A well-formed paginated answer: the store reports truncation on
every page except the last. -/
inductive ChainWF {α : Type} (tr : α → Bool) : List α → Prop where
  | last : ∀ p, tr p = false → ChainWF tr [p]
  | cons : ∀ p ps, tr p = true → ChainWF tr ps → ChainWF tr (p :: ps)

/-- Selection events of the Multipart-Upload Reaper. -/
def isSelectMPU : Event → Bool
  | .selectMPU _ _ _ => true
  | _ => false

/-- Selection events of the Upload-Folder Reaper. -/
def isSelectFolder : Event → Bool
  | .selectFolder _ _ => true
  | _ => false

/-- Store-mutating calls. -/
def isDestructive : Event → Bool
  | .abortCall _ _ _ _ => true
  | .deleteObject _ _ => true
  | _ => false

/-- The events a dry-run driver trace keeps from the corresponding live
trace: MPU selections and MPU-reaper invocations. -/
def keepEv (e : Event) : Bool := isSelectMPU e || (match e with | .callCleanMPUs _ => true | _ => false)

/-- Argument of a `callCleanMPUs` event. -/
def cpArg : Event → Option Str
  | .callCleanMPUs p => some p
  | _ => none

/-- Argument of a `callCleanUploadFolders` event. -/
def folderArg : Event → Option Str
  | .callCleanUploadFolders p => some p
  | _ => none

/-! ### Lemmas: digit and fixed-width chunk round-trips -/

theorem char_eq_of_toNat {c d : Char} (h : c.toNat = d.toNat) : c = d :=
  Char.ext (UInt32.ext (by simpa [Char.toNat] using h))

theorem digitChar_toNat {a : Nat} (h : a ≤ 9) : (digitChar a).toNat = 48 + a := by
  interval_cases a <;> decide

theorem digitVal_digitChar {a : Nat} (h : a ≤ 9) : digitVal (digitChar a) = some a := by
  interval_cases a <;> decide

theorem digitVal_eq_some {c : Char} {a : Nat} (h : digitVal c = some a) :
    a ≤ 9 ∧ c = digitChar a := by
  unfold digitVal at h
  split at h
  · rename_i hc
    have ha : a = c.toNat - 48 := by simpa using h.symm
    have ha9 : a ≤ 9 := by omega
    refine ⟨ha9, ?_⟩
    apply char_eq_of_toNat
    rw [digitChar_toNat ha9]
    omega
  · simp at h

theorem rd2_pad2 {n : Nat} (h : n ≤ 99) (r : Str) : rd2 (pad2 n ++ r) = some (n, r) := by
  have h1 : n / 10 ≤ 9 := by omega
  have h2 : n % 10 ≤ 9 := by omega
  simp [pad2, rd2, digitVal_digitChar h1, digitVal_digitChar h2]
  omega

theorem rd4_pad4 {n : Nat} (h : n ≤ 9999) (r : Str) : rd4 (pad4 n ++ r) = some (n, r) := by
  have h1 : n / 1000 ≤ 9 := by omega
  have h2 : n / 100 % 10 ≤ 9 := by omega
  have h3 : n / 10 % 10 ≤ 9 := by omega
  have h4 : n % 10 ≤ 9 := by omega
  simp [pad4, rd4, digitVal_digitChar h1, digitVal_digitChar h2,
    digitVal_digitChar h3, digitVal_digitChar h4]
  omega

theorem rd2_inv {s : Str} {n : Nat} {r : Str} (h : rd2 s = some (n, r)) :
    n ≤ 99 ∧ s = pad2 n ++ r := by
  match s with
  | [] => simp [rd2] at h
  | [c] => simp [rd2] at h
  | c1 :: c2 :: rest =>
    cases h1 : digitVal c1 with
    | none => simp [rd2, h1] at h
    | some a =>
      cases h2 : digitVal c2 with
      | none => simp [rd2, h1, h2] at h
      | some b =>
        simp only [rd2, h1, h2, Option.some.injEq, Prod.mk.injEq] at h
        obtain ⟨hn, hr⟩ := h
        obtain ⟨ha9, hca⟩ := digitVal_eq_some h1
        obtain ⟨hb9, hcb⟩ := digitVal_eq_some h2
        subst hn hr hca hcb
        constructor
        · omega
        · have e1 : (10 * a + b) / 10 = a := by omega
          have e2 : (10 * a + b) % 10 = b := by omega
          simp [pad2, e1, e2]

theorem rd4_inv {s : Str} {n : Nat} {r : Str} (h : rd4 s = some (n, r)) :
    n ≤ 9999 ∧ s = pad4 n ++ r := by
  match s with
  | [] => simp [rd4] at h
  | [c] => simp [rd4] at h
  | [c, c'] => simp [rd4] at h
  | [c, c', c''] => simp [rd4] at h
  | c1 :: c2 :: c3 :: c4 :: rest =>
    cases h1 : digitVal c1 with
    | none => simp [rd4, h1] at h
    | some a =>
      cases h2 : digitVal c2 with
      | none => simp [rd4, h1, h2] at h
      | some b =>
        cases h3 : digitVal c3 with
        | none => simp [rd4, h1, h2, h3] at h
        | some c =>
          cases h4 : digitVal c4 with
          | none => simp [rd4, h1, h2, h3, h4] at h
          | some d =>
            simp only [rd4, h1, h2, h3, h4, Option.some.injEq, Prod.mk.injEq] at h
            obtain ⟨hn, hr⟩ := h
            obtain ⟨ha9, hca⟩ := digitVal_eq_some h1
            obtain ⟨hb9, hcb⟩ := digitVal_eq_some h2
            obtain ⟨hc9, hcc⟩ := digitVal_eq_some h3
            obtain ⟨hd9, hcd⟩ := digitVal_eq_some h4
            subst hn hr hca hcb hcc hcd
            constructor
            · omega
            · have e1 : (1000 * a + 100 * b + 10 * c + d) / 1000 = a := by omega
              have e2 : (1000 * a + 100 * b + 10 * c + d) / 100 % 10 = b := by omega
              have e3 : (1000 * a + 100 * b + 10 * c + d) / 10 % 10 = c := by omega
              have e4 : (1000 * a + 100 * b + 10 * c + d) % 10 = d := by omega
              simp [pad4, e1, e2, e3, e4]

theorem lit_self (c : Char) (r : Str) : lit c (c :: r) = some r := by simp [lit]

theorem lit_inv {c : Char} {s r : Str} (h : lit c s = some r) : s = c :: r := by
  match s with
  | [] => simp [lit] at h
  | c' :: rest =>
    simp only [lit] at h
    split at h
    · rename_i hc
      simp only [Option.some.injEq] at h
      subst hc h
      rfl
    · simp at h

theorem daysInMonth_le (y m : Nat) : daysInMonth y m ≤ 31 := by
  unfold daysInMonth
  split
  · split <;> omega
  · split <;> omega

theorem parse_format (t : DateTime) (hv : validDT t) :
    parseTimestamp (formatTimestamp t) = some t := by
  obtain ⟨h1, h2, h3, h4, h5, h6, h7, h8⟩ := hv
  have hmo : t.month ≤ 99 := by omega
  have hd : t.day ≤ 99 := by have := daysInMonth_le t.year t.month; omega
  have hh : t.hour ≤ 99 := by omega
  have hmi : t.minute ≤ 99 := by omega
  have hs : t.second ≤ 99 := by omega
  have hv' : validDT t := ⟨h1, h2, h3, h4, h5, h6, h7, h8⟩
  rw [formatTimestamp]
  unfold parseTimestamp
  simp only [rd4_pad4 h1, lit_self, rd2_pad2 hmo, rd2_pad2 hd,
    rd2_pad2 hh, rd2_pad2 hmi, rd2_pad2 hs]
  simp [hv']

theorem parse_inv {s : Str} {t : DateTime} (h : parseTimestamp s = some t) :
    validDT t ∧ s = formatTimestamp t := by
  simp only [parseTimestamp] at h
  split at h
  · exact absurd h (by simp)
  rename_i y s1 hy
  split at h
  · exact absurd h (by simp)
  rename_i s2 hl1
  split at h
  · exact absurd h (by simp)
  rename_i mo s3 hmo
  split at h
  · exact absurd h (by simp)
  rename_i s4 hl2
  split at h
  · exact absurd h (by simp)
  rename_i d s5 hd
  split at h
  · exact absurd h (by simp)
  rename_i s6 hl3
  split at h
  · exact absurd h (by simp)
  rename_i hh s7 hhr
  split at h
  · exact absurd h (by simp)
  rename_i s8 hl4
  split at h
  · exact absurd h (by simp)
  rename_i mi s9 hmi
  split at h
  · exact absurd h (by simp)
  rename_i s10 hl5
  split at h
  · exact absurd h (by simp)
  rename_i sec s11 hsec
  split at h
  · exact absurd h (by simp)
  rename_i s12 hl6
  split at h
  · rename_i hnil
    split at h
    · rename_i hvd
      simp only [Option.some.injEq] at h
      subst h hnil
      obtain ⟨hy9, hsy⟩ := rd4_inv hy
      obtain ⟨hmo9, hsmo⟩ := rd2_inv hmo
      obtain ⟨hd9, hsd⟩ := rd2_inv hd
      obtain ⟨hh9, hsh⟩ := rd2_inv hhr
      obtain ⟨hmi9, hsmi⟩ := rd2_inv hmi
      obtain ⟨hs9, hss⟩ := rd2_inv hsec
      have e1 := lit_inv hl1
      have e2 := lit_inv hl2
      have e3 := lit_inv hl3
      have e4 := lit_inv hl4
      have e5 := lit_inv hl5
      have e6 := lit_inv hl6
      refine ⟨hvd, ?_⟩
      subst hsy e1 hsmo e2 hsd e3 hsh e4 hsmi e5 hss e6
      simp [formatTimestamp]
    · exact absurd h (by simp)
  · exact absurd h (by simp)

/-- C8: `parseTimeFromStream` is a left inverse of timestamp formatting
under the single fixed format `YYYY-MM-DDTHH:MM:SSZ`: every valid instant,
formatted, parses back to the identical instant; and parsing succeeds
ONLY on exactly-formatted strings, so every malformed string (missing
`Z`, wrong separator, out-of-range field, trailing bytes, ...) yields a
parse error, never a silently wrong timestamp. -/
theorem c8_roundtrip :
    (∀ t : DateTime, validDT t → parseTimeFromStream (formatTimestamp t) = some t) ∧
    (∀ (s : Str) (t : DateTime), parseTimeFromStream s = some t →
      validDT t ∧ s = formatTimestamp t) :=
  ⟨fun t hv => parse_format t hv, fun _ _ h => parse_inv h⟩

/-- Witness for C8 at the spec's example instant `2024-01-02T03:04:05Z`. -/
theorem c8_roundtrip_witness :
    validDT ⟨2024, 1, 2, 3, 4, 5⟩ ∧
      parseTimeFromStream ("2024-01-02T03:04:05Z".toList) = some ⟨2024, 1, 2, 3, 4, 5⟩ := by
  constructor
  · decide
  · have h := c8_roundtrip.1 ⟨2024, 1, 2, 3, 4, 5⟩ (by decide)
    have e : formatTimestamp ⟨2024, 1, 2, 3, 4, 5⟩ = "2024-01-02T03:04:05Z".toList := by decide
    rw [e] at h
    exact h

/-! ### Lemmas: Multipart-Upload Reaper pagination and counting -/

theorem processMPUList_append (cfg : Config) (bucket : Str) (ok : Str → Str → Bool)
    (xs ys : List MPU) :
    processMPUList cfg bucket ok (xs ++ ys) =
      ((processMPUList cfg bucket ok xs).1 + (processMPUList cfg bucket ok ys).1,
       (processMPUList cfg bucket ok xs).2 ++ (processMPUList cfg bucket ok ys).2) := by
  induction xs with
  | nil => simp [processMPUList]
  | cons m rest ih =>
    simp [processMPUList, ih, List.append_assoc]
    omega

theorem cleanMPUs_flat (cfg : Config) (bucket : Str) (ok : Str → Str → Bool)
    {pages : List MPUPage} (hwf : ChainWF (fun p => p.isTruncated) pages)
    (hmk : ∀ p ∈ pages, p.nextKeyMarker.isSome) :
    cleanMPUs cfg bucket ok pages =
      some (processMPUList cfg bucket ok ((pages.map (fun p => p.uploads)).flatten)) := by
  induction hwf with
  | last p hp =>
    obtain ⟨mk, hmkp⟩ := Option.isSome_iff_exists.mp (hmk p (by simp))
    simp [cleanMPUs, hmkp, hp]
  | cons p ps hp hwf ih =>
    obtain ⟨mk, hmkp⟩ := Option.isSome_iff_exists.mp (hmk p (by simp))
    have ih' := ih (fun q hq => hmk q (by simp [hq]))
    simp [cleanMPUs, hmkp, hp, ih', processMPUList_append]

theorem cleanMPUs_stop (cfg : Config) (bucket : Str) (ok : Str → Str → Bool)
    {pages : List MPUPage} (junk : List MPUPage)
    (hwf : ChainWF (fun p => p.isTruncated) pages) :
    cleanMPUs cfg bucket ok (pages ++ junk) = cleanMPUs cfg bucket ok pages := by
  induction hwf with
  | last p hp => cases hmk : p.nextKeyMarker <;> simp [cleanMPUs, hp, hmk]
  | cons p ps hp hwf ih => cases hmk : p.nextKeyMarker <;> simp [cleanMPUs, hp, hmk, ih]

theorem cleanMPUs_isSome_iff (cfg : Config) (bucket : Str) (ok : Str → Str → Bool)
    {pages : List MPUPage} (hwf : ChainWF (fun p => p.isTruncated) pages) :
    (cleanMPUs cfg bucket ok pages).isSome ↔ ∀ p ∈ pages, p.nextKeyMarker.isSome := by
  induction hwf with
  | last p hp => cases hmk : p.nextKeyMarker <;> simp [cleanMPUs, hmk, hp]
  | cons p ps hp hwf ih =>
    cases hmk : p.nextKeyMarker with
    | none => simp [cleanMPUs, hmk]
    | some mk =>
      cases hc : cleanMPUs cfg bucket ok ps with
      | none =>
        simp [hc] at ih
        simp [cleanMPUs, hmk, hp, hc]
        obtain ⟨q, hq, hq2⟩ := ih
        exact ⟨q, by simp [hq], hq2⟩
      | some r =>
        simp [hc] at ih
        simp [cleanMPUs, hmk, hp, hc]
        exact ih

theorem processMPU_fst (cfg : Config) (bucket : Str) (ok : Str → Str → Bool) (m : MPU) :
    (processMPU cfg bucket ok m).1 =
      if cfg.cleanupHours ≤ hoursSince m.elapsedSeconds then 1 else 0 := by
  unfold processMPU
  split
  · split <;> rfl
  · rfl

theorem processMPUList_count (cfg : Config) (bucket : Str) (ok : Str → Str → Bool)
    (l : List MPU) :
    (processMPUList cfg bucket ok l).1 =
      (l.filter (fun m => decide (cfg.cleanupHours ≤ hoursSince m.elapsedSeconds))).length := by
  induction l with
  | nil => simp [processMPUList]
  | cons m rest ih =>
    simp only [processMPUList, processMPU_fst, ih, List.filter]
    by_cases h : cfg.cleanupHours ≤ hoursSince m.elapsedSeconds
    · simp [h]
      omega
    · simp [h]

theorem processMPUList_abort_mem (cfg : Config) (bucket : Str) (ok : Str → Str → Bool)
    (hld : cfg.dryRun = false) {l : List MPU} {m : MPU} (hm : m ∈ l)
    (he : cfg.cleanupHours ≤ hoursSince m.elapsedSeconds) :
    Event.abortCall bucket m.key m.uploadId (ok m.key m.uploadId) ∈
      (processMPUList cfg bucket ok l).2 := by
  induction l with
  | nil => simp at hm
  | cons x rest ih =>
    simp only [processMPUList, List.mem_append]
    rcases List.mem_cons.mp hm with rfl | hm'
    · left
      simp [processMPU, he, hld]
    · right
      exact ih hm'

/-- Events of the Multipart-Upload Reaper's own trace. -/
def isMPUEvent : Event → Bool
  | .selectMPU _ _ _ => true
  | .abortCall _ _ _ _ => true
  | _ => false

theorem processMPUList_events (cfg : Config) (bucket : Str) (ok : Str → Str → Bool)
    (l : List MPU) : ∀ e ∈ (processMPUList cfg bucket ok l).2, isMPUEvent e = true := by
  induction l with
  | nil => simp [processMPUList]
  | cons m rest ih =>
    intro e he
    simp only [processMPUList, List.mem_append] at he
    rcases he with he | he
    · unfold processMPU at he
      split at he
      · split at he <;> simp at he <;> rcases he with rfl | rfl <;> rfl
      · simp at he
    · exact ih e he

theorem processMPUList_dry (th : Int) (bucket : Str) (ok : Str → Str → Bool) (l : List MPU) :
    processMPUList ⟨th, true⟩ bucket ok l =
      ((processMPUList ⟨th, false⟩ bucket ok l).1,
       (processMPUList ⟨th, false⟩ bucket ok l).2.filter keepEv) := by
  induction l with
  | nil => simp [processMPUList]
  | cons m rest ih =>
    simp only [processMPUList, ih, List.filter_append]
    by_cases h : th ≤ hoursSince m.elapsedSeconds
    · simp [processMPU, h, keepEv, isSelectMPU]
    · simp [processMPU, h]

theorem cleanMPUs_dry (th : Int) (bucket : Str) (ok : Str → Str → Bool)
    (pages : List MPUPage) :
    cleanMPUs ⟨th, true⟩ bucket ok pages =
      (cleanMPUs ⟨th, false⟩ bucket ok pages).map (fun r => (r.1, r.2.filter keepEv)) := by
  induction pages with
  | nil => simp [cleanMPUs]
  | cons p rest ih =>
    cases hmk : p.nextKeyMarker with
    | none => simp [cleanMPUs, hmk]
    | some mk =>
      by_cases ht : p.isTruncated
      · cases hc : cleanMPUs ⟨th, false⟩ bucket ok rest with
        | none => simp [cleanMPUs, hmk, ht, processMPUList_dry, ih, hc]
        | some r => simp [cleanMPUs, hmk, ht, processMPUList_dry, ih, hc, List.filter_append]
      · simp [cleanMPUs, hmk, ht, processMPUList_dry]

/-! ### Lemmas: Upload-Folder Reaper structure -/

/-- Events of the Upload-Folder Reaper's own trace. -/
def isFolderEvent : Event → Bool
  | .getObject _ _ => true
  | .selectFolder _ _ => true
  | .deleteObject _ _ => true
  | _ => false

/-- The events one successfully-aged candidate marker contributes. -/
def candEvents (cfg : Config) (bucket : Str) (lf : Str → List Str) (k : Str) (hv : Int) :
    List Event :=
  Event.getObject bucket k ::
    (if cfg.cleanupHours ≤ hv then
      Event.selectFolder bucket k :: (if cfg.dryRun then [] else removeUploadFolder lf bucket k)
    else [])

theorem processObjs_cons_skip (cfg : Config) (bucket : Str) (now : Int)
    (gets : Str → Option Str) (lf : Str → List Str) {k : Str} (rest : List Str)
    (hc : candidateMarker k = false) :
    processObjs cfg bucket now gets lf (k :: rest) = processObjs cfg bucket now gets lf rest := by
  simp [processObjs, hc]

theorem processObjs_cons_panic (cfg : Config) (bucket : Str) (now : Int)
    (gets : Str → Option Str) (lf : Str → List Str) {k : Str} (rest : List Str)
    (hc : candidateMarker k = true) (hh : hoursSinceUploadStarted gets now k = .panicked) :
    processObjs cfg bucket now gets lf (k :: rest) = none := by
  simp [processObjs, hc, hh]

theorem processObjs_cons_geterr (cfg : Config) (bucket : Str) (now : Int)
    (gets : Str → Option Str) (lf : Str → List Str) {k : Str} (rest : List Str)
    (hc : candidateMarker k = true) (hh : hoursSinceUploadStarted gets now k = .geterr) :
    processObjs cfg bucket now gets lf (k :: rest) =
      (processObjs cfg bucket now gets lf rest).map
        (fun tr => Event.getObject bucket k :: tr) := by
  simp [processObjs, hc, hh]

theorem processObjs_cons_ok (cfg : Config) (bucket : Str) (now : Int)
    (gets : Str → Option Str) (lf : Str → List Str) {k : Str} (rest : List Str) {hv : Int}
    (hc : candidateMarker k = true) (hh : hoursSinceUploadStarted gets now k = .ok hv) :
    processObjs cfg bucket now gets lf (k :: rest) =
      (processObjs cfg bucket now gets lf rest).map
        (fun tr => candEvents cfg bucket lf k hv ++ tr) := by
  by_cases hth : cfg.cleanupHours ≤ hv
  · by_cases hd : cfg.dryRun = true
    · simp [processObjs, hc, hh, hth, hd, candEvents]
    · simp only [Bool.not_eq_true] at hd
      simp [processObjs, hc, hh, hth, hd, candEvents]
  · simp [processObjs, hc, hh, hth, candEvents]

theorem processObjs_append (cfg : Config) (bucket : Str) (now : Int)
    (gets : Str → Option Str) (lf : Str → List Str) (xs ys : List Str) :
    processObjs cfg bucket now gets lf (xs ++ ys) =
      match processObjs cfg bucket now gets lf xs, processObjs cfg bucket now gets lf ys with
      | some t1, some t2 => some (t1 ++ t2)
      | _, _ => none := by
  induction xs with
  | nil =>
    cases h : processObjs cfg bucket now gets lf ys <;> simp [processObjs, h]
  | cons k rest ih =>
    by_cases hc : candidateMarker k = true
    · cases hh : hoursSinceUploadStarted gets now k with
      | panicked => simp [processObjs, hc, hh]
      | geterr =>
        simp only [List.cons_append, processObjs, hc, if_true, hh]
        cases h1 : processObjs cfg bucket now gets lf rest <;>
          cases h2 : processObjs cfg bucket now gets lf ys <;> simp [ih, h1, h2]
      | ok hv =>
        by_cases hth : cfg.cleanupHours ≤ hv
        · by_cases hd : cfg.dryRun = true
          · simp only [List.cons_append, processObjs, hc, if_true, hh, hth, hd]
            cases h1 : processObjs cfg bucket now gets lf rest <;>
              cases h2 : processObjs cfg bucket now gets lf ys <;> simp [ih, h1, h2]
          · simp only [List.cons_append, processObjs, hc, if_true, hh, hth, hd]
            cases h1 : processObjs cfg bucket now gets lf rest <;>
              cases h2 : processObjs cfg bucket now gets lf ys <;>
                simp [ih, h1, h2, hd, hth, List.append_assoc]
        · simp only [List.cons_append, processObjs, hc, if_true, hh, hth]
          cases h1 : processObjs cfg bucket now gets lf rest <;>
            cases h2 : processObjs cfg bucket now gets lf ys <;> simp [ih, h1, h2, hth]
    · simp only [List.cons_append, processObjs]
      simp only [Bool.not_eq_true] at hc
      simp [hc, ih]

theorem candEvents_events (cfg : Config) (bucket : Str) (lf : Str → List Str) (k : Str)
    (hv : Int) : ∀ e ∈ candEvents cfg bucket lf k hv, isFolderEvent e = true := by
  intro e he
  unfold candEvents at he
  rcases List.mem_cons.mp he with rfl | he'
  · rfl
  · split at he'
    · rcases List.mem_cons.mp he' with rfl | he''
      · rfl
      · split at he''
        · simp at he''
        · obtain ⟨o, _, rfl⟩ := List.mem_map.mp (by simpa [removeUploadFolder] using he'')
          rfl
    · simp at he'

theorem processObjs_events (cfg : Config) (bucket : Str) (now : Int)
    (gets : Str → Option Str) (lf : Str → List Str) {l : List Str} {tr : List Event}
    (h : processObjs cfg bucket now gets lf l = some tr) :
    ∀ e ∈ tr, isFolderEvent e = true := by
  induction l generalizing tr with
  | nil =>
    simp [processObjs] at h
    subst h
    simp
  | cons x rest ih =>
    by_cases hcx : candidateMarker x = true
    · cases hh : hoursSinceUploadStarted gets now x with
      | panicked => rw [processObjs_cons_panic cfg bucket now gets lf rest hcx hh] at h; simp at h
      | geterr =>
        rw [processObjs_cons_geterr cfg bucket now gets lf rest hcx hh] at h
        cases h1 : processObjs cfg bucket now gets lf rest with
        | none => rw [h1] at h; simp at h
        | some tr' =>
          rw [h1] at h
          simp at h
          subst h
          intro e he
          rcases List.mem_cons.mp he with rfl | he'
          · rfl
          · exact ih h1 e he'
      | ok hv =>
        rw [processObjs_cons_ok cfg bucket now gets lf rest hcx hh] at h
        cases h1 : processObjs cfg bucket now gets lf rest with
        | none => rw [h1] at h; simp at h
        | some tr' =>
          rw [h1] at h
          simp at h
          subst h
          intro e he
          rcases List.mem_append.mp he with hce | he'
          · exact candEvents_events cfg bucket lf x hv e hce
          · exact ih h1 e he'
    · simp only [Bool.not_eq_true] at hcx
      rw [processObjs_cons_skip cfg bucket now gets lf rest hcx] at h
      exact ih h

theorem processObjs_none_of_panic (cfg : Config) (bucket : Str) (now : Int)
    (gets : Str → Option Str) (lf : Str → List Str) {l : List Str} {k : Str}
    (hm : k ∈ l) (hc : candidateMarker k = true)
    (hp : hoursSinceUploadStarted gets now k = .panicked) :
    processObjs cfg bucket now gets lf l = none := by
  induction l with
  | nil => simp at hm
  | cons x rest ih =>
    rcases List.mem_cons.mp hm with rfl | hm'
    · exact processObjs_cons_panic cfg bucket now gets lf rest hc hp
    · by_cases hcx : candidateMarker x = true
      · cases hh : hoursSinceUploadStarted gets now x with
        | panicked => exact processObjs_cons_panic cfg bucket now gets lf rest hcx hh
        | geterr =>
          rw [processObjs_cons_geterr cfg bucket now gets lf rest hcx hh, ih hm']
          rfl
        | ok hv =>
          rw [processObjs_cons_ok cfg bucket now gets lf rest hcx hh, ih hm']
          rfl
      · simp only [Bool.not_eq_true] at hcx
        rw [processObjs_cons_skip cfg bucket now gets lf rest hcx]
        exact ih hm'

theorem cleanUploadFolders_flat (cfg : Config) (bucket : Str) (now : Int)
    (gets : Str → Option Str) (lf : Str → List Str) {pages : List ObjPage}
    (hwf : ChainWF (fun p => p.isTruncated) pages) :
    cleanUploadFolders cfg bucket now gets lf pages =
      processObjs cfg bucket now gets lf ((pages.map (fun p => p.contents)).flatten) := by
  induction hwf with
  | last p hp =>
    cases h1 : processObjs cfg bucket now gets lf p.contents <;>
      simp [cleanUploadFolders, h1, hp]
  | cons p ps hp hwf ih =>
    rw [List.map_cons, List.flatten_cons, processObjs_append]
    cases h1 : processObjs cfg bucket now gets lf p.contents with
    | none => simp [cleanUploadFolders, h1]
    | some t1 =>
      cases h2 : processObjs cfg bucket now gets lf ((ps.map (fun p => p.contents)).flatten) with
      | none => simp [cleanUploadFolders, h1, hp, ih, h2]
      | some t2 => simp [cleanUploadFolders, h1, hp, ih, h2]

theorem cleanUploadFolders_stop (cfg : Config) (bucket : Str) (now : Int)
    (gets : Str → Option Str) (lf : Str → List Str) {pages : List ObjPage}
    (junk : List ObjPage) (hwf : ChainWF (fun p => p.isTruncated) pages) :
    cleanUploadFolders cfg bucket now gets lf (pages ++ junk) =
      cleanUploadFolders cfg bucket now gets lf pages := by
  induction hwf with
  | last p hp =>
    cases h1 : processObjs cfg bucket now gets lf p.contents <;>
      simp [cleanUploadFolders, h1, hp]
  | cons p ps hp hwf ih =>
    cases h1 : processObjs cfg bucket now gets lf p.contents <;>
      simp [cleanUploadFolders, h1, hp, ih]

theorem cleanUploadFolders_events (cfg : Config) (bucket : Str) (now : Int)
    (gets : Str → Option Str) (lf : Str → List Str) {pages : List ObjPage} {tr : List Event}
    (h : cleanUploadFolders cfg bucket now gets lf pages = some tr) :
    ∀ e ∈ tr, isFolderEvent e = true := by
  induction pages generalizing tr with
  | nil => simp [cleanUploadFolders] at h
  | cons p rest ih =>
    simp only [cleanUploadFolders] at h
    cases h1 : processObjs cfg bucket now gets lf p.contents with
    | none => rw [h1] at h; simp at h
    | some t1 =>
      rw [h1] at h
      by_cases ht : p.isTruncated
      · simp only [ht, if_true] at h
        cases h2 : cleanUploadFolders cfg bucket now gets lf rest with
        | none => rw [h2] at h; simp at h
        | some t2 =>
          rw [h2] at h
          simp at h
          subst h
          intro e he
          rcases List.mem_append.mp he with he' | he'
          · exact processObjs_events cfg bucket now gets lf h1 e he'
          · exact ih h2 e he'
      · simp only [Bool.not_eq_true] at ht
        simp only [ht, Bool.false_eq_true, if_false, Option.some.injEq] at h
        subst h
        exact processObjs_events cfg bucket now gets lf h1

theorem isMPUEvent_cpArg {e : Event} (h : isMPUEvent e = true) : cpArg e = none := by
  cases e <;> first | rfl | simp [isMPUEvent] at h

theorem isMPUEvent_folderArg {e : Event} (h : isMPUEvent e = true) : folderArg e = none := by
  cases e <;> first | rfl | simp [isMPUEvent] at h

theorem isFolderEvent_cpArg {e : Event} (h : isFolderEvent e = true) : cpArg e = none := by
  cases e <;> first | rfl | simp [isFolderEvent] at h

theorem isFolderEvent_folderArg {e : Event} (h : isFolderEvent e = true) : folderArg e = none := by
  cases e <;> first | rfl | simp [isFolderEvent] at h

theorem isFolderEvent_keepEv {e : Event} (h : isFolderEvent e = true) : keepEv e = false := by
  cases e <;> first | rfl | simp [isFolderEvent] at h

theorem cleanMPUs_events (cfg : Config) (bucket : Str) (ok : Str → Str → Bool)
    {pages : List MPUPage} {r : Nat × List Event} (h : cleanMPUs cfg bucket ok pages = some r) :
    ∀ e ∈ r.2, isMPUEvent e = true := by
  induction pages generalizing r with
  | nil => simp [cleanMPUs] at h
  | cons p rest ih =>
    simp only [cleanMPUs] at h
    cases hmk : p.nextKeyMarker with
    | none => rw [hmk] at h; simp at h
    | some mk =>
      rw [hmk] at h
      by_cases ht : p.isTruncated
      · simp only [ht, if_true] at h
        cases h2 : cleanMPUs cfg bucket ok rest with
        | none => rw [h2] at h; simp at h
        | some r2 =>
          rw [h2] at h
          simp only [Option.some.injEq] at h
          subst h
          intro e he
          rcases List.mem_append.mp he with he' | he'
          · exact processMPUList_events cfg bucket ok p.uploads e he'
          · exact ih h2 e he'
      · simp only [Bool.not_eq_true] at ht
        simp only [ht, Bool.false_eq_true, if_false, Option.some.injEq] at h
        subst h
        exact processMPUList_events cfg bucket ok p.uploads

theorem processPrefixes_cpArg (cfg : Config) (bucket : Str) (sm : StoreModel)
    {ps : List Str} {r : Nat × List Event} (h : processPrefixes cfg bucket sm ps = some r) :
    r.2.filterMap cpArg = ps := by
  induction ps generalizing r with
  | nil =>
    simp [processPrefixes] at h
    subst h
    simp
  | cons p rest ih =>
    simp only [processPrefixes] at h
    cases h1 : cleanMPUs cfg bucket sm.abortOk (sm.mpuPages p) with
    | none => rw [h1] at h; simp at h
    | some r1 =>
      rw [h1] at h
      cases h2 : processPrefixes cfg bucket sm rest with
      | none => rw [h2] at h; simp at h
      | some r2 =>
        rw [h2] at h
        simp only [Option.some.injEq] at h
        subst h
        have hn : r1.2.filterMap cpArg = [] :=
          List.filterMap_eq_nil_iff.mpr
            (fun e he => isMPUEvent_cpArg (cleanMPUs_events cfg bucket sm.abortOk h1 e he))
        simp [List.filterMap_append, List.filterMap_cons, cpArg, hn, ih h2]

theorem processPrefixes_events (cfg : Config) (bucket : Str) (sm : StoreModel)
    {ps : List Str} {r : Nat × List Event} (h : processPrefixes cfg bucket sm ps = some r) :
    ∀ e ∈ r.2, isMPUEvent e = true ∨ ∃ q, e = Event.callCleanMPUs q := by
  induction ps generalizing r with
  | nil =>
    simp [processPrefixes] at h
    subst h
    simp
  | cons p rest ih =>
    simp only [processPrefixes] at h
    cases h1 : cleanMPUs cfg bucket sm.abortOk (sm.mpuPages p) with
    | none => rw [h1] at h; simp at h
    | some r1 =>
      rw [h1] at h
      cases h2 : processPrefixes cfg bucket sm rest with
      | none => rw [h2] at h; simp at h
      | some r2 =>
        rw [h2] at h
        simp only [Option.some.injEq] at h
        subst h
        intro e he
        rcases List.mem_append.mp he with he' | he'
        · rcases List.mem_cons.mp he' with rfl | he''
          · exact Or.inr ⟨p, rfl⟩
          · exact Or.inl (cleanMPUs_events cfg bucket sm.abortOk h1 e he'')
        · exact ih h2 e he'

theorem processPrefixes_folderArg (cfg : Config) (bucket : Str) (sm : StoreModel)
    {ps : List Str} {r : Nat × List Event} (h : processPrefixes cfg bucket sm ps = some r) :
    r.2.filterMap folderArg = [] := by
  refine List.filterMap_eq_nil_iff.mpr (fun e he => ?_)
  rcases processPrefixes_events cfg bucket sm h e he with hm | ⟨q, rfl⟩
  · exact isMPUEvent_folderArg hm
  · rfl

theorem processPrefixes_dry (th : Int) (bucket : Str) (sm : StoreModel) (ps : List Str) :
    processPrefixes ⟨th, true⟩ bucket sm ps =
      (processPrefixes ⟨th, false⟩ bucket sm ps).map (fun r => (r.1, r.2.filter keepEv)) := by
  induction ps with
  | nil => simp [processPrefixes]
  | cons p rest ih =>
    simp only [processPrefixes, cleanMPUs_dry, ih]
    cases h1 : cleanMPUs ⟨th, false⟩ bucket sm.abortOk (sm.mpuPages p) with
    | none => simp
    | some r1 =>
      cases h2 : processPrefixes ⟨th, false⟩ bucket sm rest with
      | none => simp
      | some r2 => simp [List.filter_append, List.filter_cons, keepEv, isSelectMPU]

theorem pageStep_dry (th : Int) (bucket rootPfx : Str) (now : Int) (sm : StoreModel)
    (p : RootPage) {r : Nat × List Event}
    (h : pageStep ⟨th, false⟩ bucket rootPfx now sm p = some r) :
    pageStep ⟨th, true⟩ bucket rootPfx now sm p = some (r.1, r.2.filter keepEv) := by
  simp only [pageStep] at h ⊢
  cases h1 : processPrefixes ⟨th, false⟩ bucket sm p.commonPrefixes with
  | none => rw [h1] at h; simp at h
  | some r1 =>
    rw [h1] at h
    simp only [show (⟨th, false⟩ : Config).dryRun = false from rfl, Bool.false_eq_true,
      if_false] at h
    cases h2 : cleanUploadFolders ⟨th, false⟩ bucket now sm.gets sm.listFolder
        (sm.objPages rootPfx) with
    | none => rw [h2] at h; simp at h
    | some ftr =>
      rw [h2] at h
      simp only [Option.some.injEq] at h
      subst h
      rw [processPrefixes_dry, h1]
      simp only [Option.map_some, show (⟨th, true⟩ : Config).dryRun = true from rfl, if_true]
      have hftr : ftr.filter keepEv = [] :=
        List.filter_eq_nil_iff.mpr (fun e he => by
          simp [isFolderEvent_keepEv (cleanUploadFolders_events _ _ _ _ _ h2 e he)])
      simp [List.filter_append, List.filter_cons, keepEv, isSelectMPU, hftr]

theorem mainLoop_dry (th : Int) (bucket rootPfx : Str) (now : Int) (sm : StoreModel)
    {pages : List RootPage} {c : Nat} {tr : List Event}
    (h : mainLoop ⟨th, false⟩ bucket rootPfx now sm pages = some (c, tr)) :
    mainLoop ⟨th, true⟩ bucket rootPfx now sm pages = some (c, tr.filter keepEv) := by
  induction pages generalizing c tr with
  | nil => simp [mainLoop] at h
  | cons p rest ih =>
    simp only [mainLoop] at h ⊢
    by_cases ht : p.isTruncated
    · simp only [ht, if_true] at h ⊢
      cases hmk : p.nextMarker with
      | none => rw [hmk] at h; simp at h
      | some mk =>
        rw [hmk] at h
        cases h1 : pageStep ⟨th, false⟩ bucket rootPfx now sm p with
        | none => rw [h1] at h; simp at h
        | some r =>
          rw [h1] at h
          cases h2 : mainLoop ⟨th, false⟩ bucket rootPfx now sm rest with
          | none => rw [h2] at h; simp at h
          | some r' =>
            obtain ⟨c2, tr2⟩ := r'
            rw [h2] at h
            simp only [Option.some.injEq, Prod.mk.injEq] at h
            obtain ⟨hc, htr⟩ := h
            subst hc htr
            rw [pageStep_dry th bucket rootPfx now sm p h1, ih h2]
            simp [List.filter_append]
    · simp only [ht, Bool.false_eq_true, if_false] at h ⊢
      have := pageStep_dry th bucket rootPfx now sm p (by rw [h])
      rw [this]

theorem pageStep_cpArg (cfg : Config) (bucket rootPfx : Str) (now : Int) (sm : StoreModel)
    (p : RootPage) {r : Nat × List Event} (h : pageStep cfg bucket rootPfx now sm p = some r) :
    r.2.filterMap cpArg = p.commonPrefixes := by
  simp only [pageStep] at h
  cases h1 : processPrefixes cfg bucket sm p.commonPrefixes with
  | none => rw [h1] at h; simp at h
  | some r1 =>
    rw [h1] at h
    by_cases hd : cfg.dryRun = true
    · simp only [hd, if_true, Option.some.injEq] at h
      subst h
      exact processPrefixes_cpArg cfg bucket sm h1
    · simp only [Bool.not_eq_true] at hd
      simp only [hd, Bool.false_eq_true, if_false] at h
      cases h2 : cleanUploadFolders cfg bucket now sm.gets sm.listFolder
          (sm.objPages rootPfx) with
      | none => rw [h2] at h; simp at h
      | some ftr =>
        rw [h2] at h
        simp only [Option.some.injEq] at h
        subst h
        have hftr : ftr.filterMap cpArg = [] :=
          List.filterMap_eq_nil_iff.mpr (fun e he =>
            isFolderEvent_cpArg (cleanUploadFolders_events _ _ _ _ _ h2 e he))
        simp [List.filterMap_append, List.filterMap_cons, cpArg, hftr,
          processPrefixes_cpArg cfg bucket sm h1]

theorem pageStep_folderArg (cfg : Config) (bucket rootPfx : Str) (now : Int) (sm : StoreModel)
    (p : RootPage) {r : Nat × List Event} (h : pageStep cfg bucket rootPfx now sm p = some r) :
    r.2.filterMap folderArg = if cfg.dryRun then [] else [rootPfx] := by
  simp only [pageStep] at h
  cases h1 : processPrefixes cfg bucket sm p.commonPrefixes with
  | none => rw [h1] at h; simp at h
  | some r1 =>
    rw [h1] at h
    by_cases hd : cfg.dryRun = true
    · simp only [hd, if_true, Option.some.injEq] at h
      subst h
      simp [hd, processPrefixes_folderArg cfg bucket sm h1]
    · simp only [Bool.not_eq_true] at hd
      simp only [hd, Bool.false_eq_true, if_false] at h
      cases h2 : cleanUploadFolders cfg bucket now sm.gets sm.listFolder
          (sm.objPages rootPfx) with
      | none => rw [h2] at h; simp at h
      | some ftr =>
        rw [h2] at h
        simp only [Option.some.injEq] at h
        subst h
        have hftr : ftr.filterMap folderArg = [] :=
          List.filterMap_eq_nil_iff.mpr (fun e he =>
            isFolderEvent_folderArg (cleanUploadFolders_events _ _ _ _ _ h2 e he))
        simp [List.filterMap_append, List.filterMap_cons, folderArg, hftr,
          processPrefixes_folderArg cfg bucket sm h1, hd]

theorem mainLoop_cpArg (cfg : Config) (bucket rootPfx : Str) (now : Int) (sm : StoreModel)
    {pages : List RootPage} (hwf : ChainWF (fun p => p.isTruncated) pages)
    {c : Nat} {tr : List Event}
    (h : mainLoop cfg bucket rootPfx now sm pages = some (c, tr)) :
    tr.filterMap cpArg = (pages.map (fun p => p.commonPrefixes)).flatten := by
  induction hwf generalizing c tr with
  | last p hp =>
    simp only [mainLoop, hp, Bool.false_eq_true, if_false] at h
    simp [pageStep_cpArg cfg bucket rootPfx now sm p h]
  | cons p ps hp hwf ih =>
    simp only [mainLoop, hp, if_true] at h
    cases hmk : p.nextMarker with
    | none => rw [hmk] at h; simp at h
    | some mk =>
      rw [hmk] at h
      cases h1 : pageStep cfg bucket rootPfx now sm p with
      | none => rw [h1] at h; simp at h
      | some r =>
        rw [h1] at h
        cases h2 : mainLoop cfg bucket rootPfx now sm ps with
        | none => rw [h2] at h; simp at h
        | some r' =>
          obtain ⟨c2, tr2⟩ := r'
          rw [h2] at h
          simp only [Option.some.injEq, Prod.mk.injEq] at h
          obtain ⟨hc, htr⟩ := h
          subst hc htr
          simp [List.filterMap_append, pageStep_cpArg cfg bucket rootPfx now sm p h1, ih h2]

theorem mainLoop_folderArg (cfg : Config) (bucket rootPfx : Str) (now : Int) (sm : StoreModel)
    {pages : List RootPage} (hwf : ChainWF (fun p => p.isTruncated) pages)
    {c : Nat} {tr : List Event}
    (h : mainLoop cfg bucket rootPfx now sm pages = some (c, tr)) :
    tr.filterMap folderArg = if cfg.dryRun then [] else pages.map (fun _ => rootPfx) := by
  induction hwf generalizing c tr with
  | last p hp =>
    simp only [mainLoop, hp, Bool.false_eq_true, if_false] at h
    have := pageStep_folderArg cfg bucket rootPfx now sm p h
    by_cases hd : cfg.dryRun = true <;> simp_all
  | cons p ps hp hwf ih =>
    simp only [mainLoop, hp, if_true] at h
    cases hmk : p.nextMarker with
    | none => rw [hmk] at h; simp at h
    | some mk =>
      rw [hmk] at h
      cases h1 : pageStep cfg bucket rootPfx now sm p with
      | none => rw [h1] at h; simp at h
      | some r =>
        rw [h1] at h
        cases h2 : mainLoop cfg bucket rootPfx now sm ps with
        | none => rw [h2] at h; simp at h
        | some r' =>
          obtain ⟨c2, tr2⟩ := r'
          rw [h2] at h
          simp only [Option.some.injEq, Prod.mk.injEq] at h
          obtain ⟨hc, htr⟩ := h
          subst hc htr
          have hpa := pageStep_folderArg cfg bucket rootPfx now sm p h1
          have hia := ih h2
          by_cases hd : cfg.dryRun = true <;> simp_all [List.filterMap_append]

theorem mainLoop_stop (cfg : Config) (bucket rootPfx : Str) (now : Int) (sm : StoreModel)
    {pages : List RootPage} (junk : List RootPage)
    (hwf : ChainWF (fun p => p.isTruncated) pages) :
    mainLoop cfg bucket rootPfx now sm (pages ++ junk) =
      mainLoop cfg bucket rootPfx now sm pages := by
  induction hwf with
  | last p hp => simp [mainLoop, hp]
  | cons p ps hp hwf ih =>
    simp only [List.cons_append, mainLoop, hp, if_true]
    cases hmk : p.nextMarker with
    | none => rfl
    | some mk =>
      cases h1 : pageStep cfg bucket rootPfx now sm p <;> simp [ih]

theorem applyEvent_id {st : StoreState} {e : Event} (h : isDestructive e = false) :
    applyEvent st e = st := by
  cases e <;> first | rfl | simp [isDestructive] at h

theorem applyEvents_id {evs : List Event} (h : ∀ e ∈ evs, isDestructive e = false)
    (st : StoreState) : applyEvents st evs = st := by
  induction evs generalizing st with
  | nil => rfl
  | cons e rest ih =>
    simp only [applyEvents, List.foldl_cons]
    rw [applyEvent_id (h e (by simp))]
    exact ih (fun e' he' => h e' (by simp [he'])) st

theorem keepEv_not_destructive {e : Event} (h : keepEv e = true) : isDestructive e = false := by
  cases e <;> first | rfl | simp [keepEv, isSelectMPU] at h

theorem keepEv_not_selectFolder {e : Event} (h : keepEv e = true) : isSelectFolder e = false := by
  cases e <;> first | rfl | simp [keepEv, isSelectMPU] at h

theorem selectMPU_keepEv {e : Event} (h : isSelectMPU e = true) : keepEv e = true := by
  cases e <;> simp [keepEv, isSelectMPU] at h ⊢

theorem filter_keep_selectMPU (tr : List Event) :
    (tr.filter keepEv).filter isSelectMPU = tr.filter isSelectMPU := by
  rw [List.filter_filter]
  have hpt : ∀ e, (isSelectMPU e && keepEv e) = isSelectMPU e := fun e => by cases e <;> rfl
  simp only [hpt]

theorem filter_keep_destructive (tr : List Event) :
    (tr.filter keepEv).filter isDestructive = [] := by
  rw [List.filter_filter]
  have hpt : ∀ e : Event, (isDestructive e && keepEv e) = false := fun e => by cases e <;> rfl
  simp only [hpt]
  exact List.filter_false _

theorem filter_keep_selectFolder (tr : List Event) :
    (tr.filter keepEv).filter isSelectFolder = [] := by
  rw [List.filter_filter]
  have hpt : ∀ e : Event, (isSelectFolder e && keepEv e) = false := fun e => by cases e <;> rfl
  simp only [hpt]
  exact List.filter_false _

theorem mainLoop_ok_of_empty (th : Int) (bucket rootPfx : Str) (now : Int) (sm : StoreModel)
    {pages : List RootPage} (hwf : ChainWF (fun p => p.isTruncated) pages)
    (hcp : ∀ p ∈ pages, p.commonPrefixes = [])
    (hmk : ∀ p ∈ pages, p.isTruncated = true → p.nextMarker.isSome) :
    (mainLoop ⟨th, true⟩ bucket rootPfx now sm pages).isSome := by
  induction hwf with
  | last p hp =>
    simp [mainLoop, hp, pageStep, hcp p (by simp), processPrefixes]
  | cons p ps hp hwf ih =>
    obtain ⟨mk, hmkp⟩ := Option.isSome_iff_exists.mp (hmk p (by simp) hp)
    have ih' := ih (fun q hq => hcp q (by simp [hq])) (fun q hq => hmk q (by simp [hq]))
    obtain ⟨r', hr'⟩ := Option.isSome_iff_exists.mp ih'
    simp [mainLoop, hp, hmkp, pageStep, hcp p (by simp), processPrefixes, hr']

/-- A delete of key `k` is justified by marker `m`: `m` is a candidate
whose bytes were fetched and parsed, whose truncated age met the
threshold in live mode, and whose folder listing returned `k`. -/
def justifies (cfg : Config) (now : Int) (gets : Str → Option Str)
    (lf : Str → List Str) (m k : Str) : Prop :=
  candidateMarker m = true ∧
    ∃ content t, gets m = some content ∧ parseTimeFromStream content = some t ∧
      cfg.cleanupHours ≤ hoursSince (now - toSecs t) ∧ cfg.dryRun = false ∧
      k ∈ lf (dropLastSegment m)

theorem hoursResult_ok_inv {gets : Str → Option Str} {now : Int} {m : Str} {hv : Int}
    (h : hoursSinceUploadStarted gets now m = .ok hv) :
    ∃ content t, gets m = some content ∧ parseTimeFromStream content = some t ∧
      hv = hoursSince (now - toSecs t) := by
  unfold hoursSinceUploadStarted at h
  cases hg : gets m with
  | none => simp [hg] at h
  | some content =>
    simp only [hg] at h
    cases hp : parseTimeFromStream content with
    | none => simp [hp] at h
    | some t =>
      simp only [hp, HoursResult.ok.injEq] at h
      exact ⟨content, t, rfl, hp, h.symm⟩

theorem processObjs_delete_justified (cfg : Config) (bucket : Str) (now : Int)
    (gets : Str → Option Str) (lf : Str → List Str) {l : List Str} {tr : List Event}
    (h : processObjs cfg bucket now gets lf l = some tr) :
    ∀ b k, Event.deleteObject b k ∈ tr →
      ∃ m pre post, tr = pre ++ Event.getObject bucket m :: post ∧
        Event.deleteObject b k ∈ post ∧ justifies cfg now gets lf m k := by
  induction l generalizing tr with
  | nil =>
    simp [processObjs] at h
    subst h
    simp
  | cons x rest ih =>
    by_cases hcx : candidateMarker x = true
    · cases hh : hoursSinceUploadStarted gets now x with
      | panicked =>
        rw [processObjs_cons_panic cfg bucket now gets lf rest hcx hh] at h
        simp at h
      | geterr =>
        rw [processObjs_cons_geterr cfg bucket now gets lf rest hcx hh] at h
        cases h1 : processObjs cfg bucket now gets lf rest with
        | none => rw [h1] at h; simp at h
        | some tr' =>
          rw [h1] at h
          simp at h
          subst h
          intro b k hk
          rcases List.mem_cons.mp hk with hk' | hk'
          · exact Event.noConfusion hk'
          · obtain ⟨m, pre, post, htr, hkp, hj⟩ := ih h1 b k hk'
            exact ⟨m, Event.getObject bucket x :: pre, post, by simp [htr], hkp, hj⟩
      | ok hv =>
        rw [processObjs_cons_ok cfg bucket now gets lf rest hcx hh] at h
        cases h1 : processObjs cfg bucket now gets lf rest with
        | none => rw [h1] at h; simp at h
        | some tr' =>
          rw [h1] at h
          simp at h
          subst h
          intro b k hk
          rw [candEvents, List.cons_append] at hk
          rcases List.mem_cons.mp hk with hk' | hk'
          · exact Event.noConfusion hk'
          · rcases List.mem_append.mp hk' with hkc | hkt
            · refine ⟨x, [],
                (if cfg.cleanupHours ≤ hv then
                  Event.selectFolder bucket x ::
                    (if cfg.dryRun then [] else removeUploadFolder lf bucket x)
                else []) ++ tr',
                by simp [candEvents], List.mem_append_left _ hkc, ?_⟩
              split at hkc
              · rename_i hth
                rcases List.mem_cons.mp hkc with hk'' | hk''
                · exact Event.noConfusion hk''
                · split at hk''
                  · simp at hk''
                  · rename_i hd
                    simp only [Bool.not_eq_true] at hd
                    obtain ⟨content, t, hg, hp, hhv⟩ := hoursResult_ok_inv hh
                    simp only [removeUploadFolder, List.mem_map] at hk''
                    obtain ⟨o, ho, heq⟩ := hk''
                    have hbk : bucket = b ∧ o = k := by
                      injection heq with hb1 hb2
                      exact ⟨hb1, hb2⟩
                    obtain ⟨rfl, rfl⟩ := hbk
                    exact ⟨hcx, content, t, hg, hp, hhv ▸ hth, hd, ho⟩
              · simp at hkc
            · obtain ⟨m, pre, post, htr, hkp, hj⟩ := ih h1 b k hkt
              refine ⟨m, candEvents cfg bucket lf x hv ++ pre, post, ?_, hkp, hj⟩
              rw [candEvents, List.cons_append]
              simp [htr, candEvents, List.append_assoc]
    · simp only [Bool.not_eq_true] at hcx
      rw [processObjs_cons_skip cfg bucket now gets lf rest hcx] at h
      exact ih h

theorem applyEvents_deletes (bucket : Str) (l : List Str) (st : StoreState) :
    applyEvents st (l.map (fun o => Event.deleteObject bucket o)) =
      { objects := st.objects.filter (fun o => decide (o ∉ l)), mpus := st.mpus } := by
  induction l generalizing st with
  | nil => simp [applyEvents]
  | cons k rest ih =>
    simp only [List.map_cons, applyEvents, List.foldl_cons]
    rw [show List.foldl applyEvent (applyEvent st (Event.deleteObject bucket k))
        (rest.map (fun o => Event.deleteObject bucket o)) =
        applyEvents (applyEvent st (Event.deleteObject bucket k))
          (rest.map (fun o => Event.deleteObject bucket o)) from rfl, ih]
    simp only [applyEvent, List.filter_filter]
    congr 1
    apply List.filter_congr
    intro o _
    by_cases h1 : o = k <;> by_cases h2 : o ∈ rest <;> simp [h1, h2]

/-- C5: an item (multipart upload or upload-folder marker) whose
truncated whole-hour age is `h` is selected for removal if and only if
`h >= threshold`; the boundary `h = threshold` is inclusive.  Selection
is the source's threshold-branch log line: `selectMPU` in `cleanMPUs`
(main.go line 128-129) and `selectFolder` in `cleanUploadFolders`
(main.go lines 174-175), counting one removal for the upload. -/
theorem c5_threshold (cfg : Config) (bucket : Str) (ok : Str → Str → Bool) (m : MPU)
    (now : Int) (gets : Str → Option Str) (lf : Str → List Str) (k : Str)
    (hmpu hfold : Int) (hm : hoursSince m.elapsedSeconds = hmpu)
    (hc : candidateMarker k = true)
    (hk : hoursSinceUploadStarted gets now k = .ok hfold) :
    ((processMPU cfg bucket ok m).1 = 1 ↔ cfg.cleanupHours ≤ hmpu) ∧
    ((∃ tr, processObjs cfg bucket now gets lf [k] = some tr ∧
        Event.selectFolder bucket k ∈ tr) ↔ cfg.cleanupHours ≤ hfold) := by
  constructor
  · rw [processMPU_fst, hm]
    by_cases h : cfg.cleanupHours ≤ hmpu <;> simp [h]
  · have hrw := processObjs_cons_ok cfg bucket now gets lf [] hc hk
    constructor
    · rintro ⟨tr, htr, hsel⟩
      rw [hrw] at htr
      simp only [processObjs, Option.map_some] at htr
      by_contra hth
      rw [candEvents] at htr
      simp only [hth, if_false] at htr
      simp at htr
      subst htr
      rcases List.mem_cons.mp hsel with h' | h'
      · exact Event.noConfusion h'
      · simp at h'
    · intro hth
      refine ⟨candEvents cfg bucket lf k hfold ++ [], ?_, ?_⟩
      · rw [hrw]
        simp [processObjs]
      · simp [candEvents, hth]

/-- Witness for C5, exercising the inclusive boundary: threshold 3 and
an age of exactly 3 truncated hours select both item kinds. -/
theorem c5_threshold_witness :
    ((processMPU ⟨3, false⟩ ("b".toList) (fun _ _ => true)
        ⟨"k".toList, "u".toList, 3 * 3600⟩).1 = 1 ↔ (3 : Int) ≤ 3) ∧
    ((∃ tr, processObjs ⟨3, false⟩ ("b".toList) (toSecs ⟨2024, 1, 1, 3, 0, 0⟩)
        (fun _ => some ("2024-01-01T00:00:00Z".toList)) (fun _ => [])
        ["r/_uploads/x/startedat".toList] = some tr ∧
        Event.selectFolder ("b".toList) ("r/_uploads/x/startedat".toList) ∈ tr) ↔
      (3 : Int) ≤ 3) :=
  c5_threshold ⟨3, false⟩ ("b".toList) (fun _ _ => true)
    ⟨"k".toList, "u".toList, 3 * 3600⟩ (toSecs ⟨2024, 1, 1, 3, 0, 0⟩)
    (fun _ => some ("2024-01-01T00:00:00Z".toList)) (fun _ => [])
    ("r/_uploads/x/startedat".toList) 3 3 (by decide) (by decide) (by decide)

/-- A trivial store model used to instantiate driver-level statements. -/
def smTrivial : StoreModel :=
  { rootPages := []
    mpuPages := fun _ => []
    abortOk := fun _ _ => true
    objPages := fun _ => []
    gets := fun _ => none
    listFolder := fun _ => [] }

/-- C10: `cleanMPUs` dereferences `NextKeyMarker` on every page it
visits, including the final untruncated one, so over a well-formed page
sequence it completes without the nil-pointer panic exactly when every
page carries a non-nil `NextKeyMarker`; by contrast the driver loop
reads its `NextMarker` cursor only on truncated pages, so a final
untruncated root page with a nil `NextMarker` does not crash it. -/
theorem c10_nextKeyMarker :
    (∀ (cfg : Config) (bucket : Str) (ok : Str → Str → Bool) (pages : List MPUPage),
      ChainWF (fun p => p.isTruncated) pages →
        ((cleanMPUs cfg bucket ok pages).isSome ↔ ∀ p ∈ pages, p.nextKeyMarker.isSome)) ∧
    (∀ (th : Int) (bucket rootPfx : Str) (now : Int) (sm : StoreModel)
        (pages : List RootPage),
      ChainWF (fun p => p.isTruncated) pages →
        (∀ p ∈ pages, p.commonPrefixes = []) →
        (∀ p ∈ pages, p.isTruncated = true → p.nextMarker.isSome) →
        (mainLoop ⟨th, true⟩ bucket rootPfx now sm pages).isSome) :=
  ⟨fun cfg bucket ok _ hwf => cleanMPUs_isSome_iff cfg bucket ok hwf,
   fun _ _ _ _ _ _ hwf hcp hmk => mainLoop_ok_of_empty _ _ _ _ _ hwf hcp hmk⟩

/-- Witness for C10: a single untruncated multipart page with a nil
`NextKeyMarker` crashes `cleanMPUs` (the iff's two sides are both
false), while a single untruncated root page with a nil `NextMarker`
completes the driver loop. -/
theorem c10_nextKeyMarker_witness :
    ((cleanMPUs ⟨3, false⟩ ("b".toList) (fun _ _ => true)
        [⟨[], none, false⟩]).isSome ↔
      ∀ p ∈ [(⟨[], none, false⟩ : MPUPage)], p.nextKeyMarker.isSome) ∧
    (mainLoop ⟨3, true⟩ ("b".toList) ("root".toList) 0 smTrivial
      [⟨[], none, false⟩]).isSome :=
  ⟨c10_nextKeyMarker.1 ⟨3, false⟩ ("b".toList) (fun _ _ => true)
      [⟨[], none, false⟩] (ChainWF.last _ rfl),
   c10_nextKeyMarker.2 3 ("b".toList) ("root".toList) 0 smTrivial
      [⟨[], none, false⟩] (ChainWF.last _ rfl) (by decide) (by decide)⟩

/-- C7: each of the three paginated scans visits, over a well-formed
page sequence (truncation reported on every page but the last), exactly
the items the store served, exactly once, and stops at the first
untruncated page.  For `cleanMPUs` and `cleanUploadFolders` this is the
equality of the paginated loop with the corresponding straight-line pass
over the concatenation of all pages; for the driver it is that the
`callCleanMPUs` invocation sequence equals the concatenation of the
pages' common-prefix lists; the `++ junk` equations show each loop
terminates exactly when a page reports `truncated = false` (pages the
store would serve beyond that are never requested). -/
theorem c7_pagination :
    (∀ (cfg : Config) (bucket : Str) (ok : Str → Str → Bool) (pages : List MPUPage),
      ChainWF (fun p => p.isTruncated) pages →
      (∀ p ∈ pages, p.nextKeyMarker.isSome) →
      cleanMPUs cfg bucket ok pages =
        some (processMPUList cfg bucket ok ((pages.map (fun p => p.uploads)).flatten))) ∧
    (∀ (cfg : Config) (bucket : Str) (ok : Str → Str → Bool) (pages junk : List MPUPage),
      ChainWF (fun p => p.isTruncated) pages →
      cleanMPUs cfg bucket ok (pages ++ junk) = cleanMPUs cfg bucket ok pages) ∧
    (∀ (cfg : Config) (bucket : Str) (now : Int) (gets : Str → Option Str)
        (lf : Str → List Str) (pages : List ObjPage),
      ChainWF (fun p => p.isTruncated) pages →
      cleanUploadFolders cfg bucket now gets lf pages =
        processObjs cfg bucket now gets lf ((pages.map (fun p => p.contents)).flatten)) ∧
    (∀ (cfg : Config) (bucket : Str) (now : Int) (gets : Str → Option Str)
        (lf : Str → List Str) (pages junk : List ObjPage),
      ChainWF (fun p => p.isTruncated) pages →
      cleanUploadFolders cfg bucket now gets lf (pages ++ junk) =
        cleanUploadFolders cfg bucket now gets lf pages) ∧
    (∀ (cfg : Config) (bucket rootPfx : Str) (now : Int) (sm : StoreModel)
        (pages : List RootPage) (c : Nat) (tr : List Event),
      ChainWF (fun p => p.isTruncated) pages →
      mainLoop cfg bucket rootPfx now sm pages = some (c, tr) →
      tr.filterMap cpArg = (pages.map (fun p => p.commonPrefixes)).flatten) ∧
    (∀ (cfg : Config) (bucket rootPfx : Str) (now : Int) (sm : StoreModel)
        (pages junk : List RootPage),
      ChainWF (fun p => p.isTruncated) pages →
      mainLoop cfg bucket rootPfx now sm (pages ++ junk) =
        mainLoop cfg bucket rootPfx now sm pages) :=
  ⟨fun cfg bucket ok _ hwf hmk => cleanMPUs_flat cfg bucket ok hwf hmk,
   fun cfg bucket ok _ junk hwf => cleanMPUs_stop cfg bucket ok junk hwf,
   fun cfg bucket now gets lf _ hwf => cleanUploadFolders_flat cfg bucket now gets lf hwf,
   fun cfg bucket now gets lf _ junk hwf => cleanUploadFolders_stop cfg bucket now gets lf junk hwf,
   fun cfg bucket rootPfx now sm _ _ _ hwf h => mainLoop_cpArg cfg bucket rootPfx now sm hwf h,
   fun cfg bucket rootPfx now sm _ junk hwf => mainLoop_stop cfg bucket rootPfx now sm junk hwf⟩

/-- Witness for C7: two multipart pages (first truncated, second not)
are processed exactly like the flat two-upload list. -/
theorem c7_pagination_witness :
    cleanMPUs ⟨3, false⟩ ("b".toList) (fun _ _ => true)
        [⟨[⟨"k1".toList, "u1".toList, 4 * 3600⟩], some [], true⟩,
         ⟨[⟨"k2".toList, "u2".toList, 1 * 3600⟩], some [], false⟩] =
      some (processMPUList ⟨3, false⟩ ("b".toList) (fun _ _ => true)
        [⟨"k1".toList, "u1".toList, 4 * 3600⟩, ⟨"k2".toList, "u2".toList, 1 * 3600⟩]) :=
  c7_pagination.1 ⟨3, false⟩ ("b".toList) (fun _ _ => true)
    [⟨[⟨"k1".toList, "u1".toList, 4 * 3600⟩], some [], true⟩,
     ⟨[⟨"k2".toList, "u2".toList, 1 * 3600⟩], some [], false⟩]
    (ChainWF.cons _ _ rfl (ChainWF.last _ rfl)) (by decide)

/-- C9: `removeUploadFolder` issues exactly one delete per object
returned by its single, un-paginated listing call under the prefix
obtained by dropping the marker key's last `/`-segment; applying its
trace to a store removes exactly the listed keys, leaves the multipart
state untouched, and — whenever the listing honours the prefix contract
— leaves every object outside that prefix unchanged. -/
theorem c9_frame (lf : Str → List Str) (bucket k : Str) (st : StoreState)
    (hcon : ∀ o ∈ lf (dropLastSegment k), hasPfx (dropLastSegment k) o = true) :
    removeUploadFolder lf bucket k =
      (lf (dropLastSegment k)).map (fun o => Event.deleteObject bucket o) ∧
    (applyEvents st (removeUploadFolder lf bucket k)).mpus = st.mpus ∧
    (∀ o, o ∈ (applyEvents st (removeUploadFolder lf bucket k)).objects ↔
      o ∈ st.objects ∧ o ∉ lf (dropLastSegment k)) ∧
    (∀ o ∈ st.objects, hasPfx (dropLastSegment k) o = false →
      o ∈ (applyEvents st (removeUploadFolder lf bucket k)).objects) := by
  have hap := applyEvents_deletes bucket (lf (dropLastSegment k)) st
  refine ⟨rfl, ?_, ?_, ?_⟩
  · rw [removeUploadFolder, hap]
  · intro o
    rw [removeUploadFolder, hap]
    simp [List.mem_filter]
  · intro o ho hpf
    rw [removeUploadFolder, hap]
    simp only [List.mem_filter, decide_eq_true_eq]
    refine ⟨ho, fun hin => ?_⟩
    rw [hcon o hin] at hpf
    cases hpf

/-! ### Concrete stores used by witnesses and counterexamples -/

/-- The bucket name used in the concrete runs. -/
def bb : Str := "b".toList

/-- The root listing prefix used in the concrete runs. -/
def rootP : Str := "root/".toList

/-- Marker of the stale upload folder `r/_uploads/ab`. -/
def kAB : Str := "r/_uploads/ab/startedat".toList

/-- Marker of the fresh sibling upload folder `r/_uploads/abc`, whose
directory name extends `ab` as a string. -/
def kABC : Str := "r/_uploads/abc/startedat".toList

/-- A marker timestamp ten hours before `nowCex`. -/
def tsOld : Str := "2024-01-01T00:00:00Z".toList

/-- A marker timestamp thirty minutes before `nowCex`. -/
def tsNew : Str := "2024-01-01T09:30:00Z".toList

/-- The current time of the concrete runs, 2024-01-01T10:00:00Z. -/
def nowCex : Int := toSecs ⟨2024, 1, 1, 10, 0, 0⟩

/-- Store bytes: the stale marker holds `tsOld`, the fresh one `tsNew`. -/
def getsCex : Str → Option Str :=
  fun k => if k = kAB then some tsOld else if k = kABC then some tsNew else none

/-- Folder listing: under `r/_uploads/ab` (no trailing slash) the store
returns both markers, since S3 prefix matching is plain string-prefix
matching and `r/_uploads/abc/startedat` extends `r/_uploads/ab`. -/
def lfCex : Str → List Str :=
  fun p => if p = "r/_uploads/ab".toList then [kAB, kABC] else []

/-- Witness for C9 at a concrete marker, store and listing. -/
theorem c9_frame_witness :
    removeUploadFolder lfCex bb kAB =
      (lfCex (dropLastSegment kAB)).map (fun o => Event.deleteObject bb o) ∧
    (applyEvents ⟨[kAB, kABC, "z".toList], [(kAB, "u".toList)]⟩
        (removeUploadFolder lfCex bb kAB)).mpus = [(kAB, "u".toList)] ∧
    (∀ o, o ∈ (applyEvents ⟨[kAB, kABC, "z".toList], [(kAB, "u".toList)]⟩
        (removeUploadFolder lfCex bb kAB)).objects ↔
      o ∈ [kAB, kABC, "z".toList] ∧ o ∉ lfCex (dropLastSegment kAB)) ∧
    (∀ o ∈ [kAB, kABC, "z".toList], hasPfx (dropLastSegment kAB) o = false →
      o ∈ (applyEvents ⟨[kAB, kABC, "z".toList], [(kAB, "u".toList)]⟩
        (removeUploadFolder lfCex bb kAB)).objects) :=
  c9_frame lfCex bb kAB ⟨[kAB, kABC, "z".toList], [(kAB, "u".toList)]⟩ (by decide)

/-- Counterexample to C6 as stated: with threshold 3, the stale tree
`r/_uploads/ab` (age 10h) is removed, but because its deletion-unit
prefix `r/_uploads/ab` carries no trailing slash, the single listing
also returns `r/_uploads/abc/startedat` — an object of the SIBLING tree
`r/_uploads/abc`, whose own marker parses to age 0 (< 3) — and a
delete-object call is issued for it.  So a delete targets an object of a
tree whose age check did NOT pass. -/
theorem c6_cex :
    cleanUploadFolders ⟨3, false⟩ bb nowCex getsCex lfCex [⟨[kAB, kABC], none, false⟩] =
      some [Event.getObject bb kAB, Event.selectFolder bb kAB,
            Event.deleteObject bb kAB, Event.deleteObject bb kABC,
            Event.getObject bb kABC] ∧
    kABC = "r/_uploads/abc".toList ++ "/startedat".toList ∧
    hoursSinceUploadStarted getsCex nowCex kABC = .ok 0 ∧ ¬ ((3 : Int) ≤ 0) := by
  refine ⟨?_, by decide, by decide, by decide⟩
  decide

/-- C6 amended: in every completed upload-folder scan, each delete-object
call is preceded in the trace by the fetch of SOME candidate marker that
parsed successfully, whose truncated age met the threshold in live mode,
and whose deletion-unit listing (marker key minus its last `/`-segment,
with no trailing slash) returned the deleted key — but that key may
belong to a sibling tree whose directory name extends the stale tree's
name, not to the justifying marker's own tree. -/
theorem c6_amended (cfg : Config) (bucket : Str) (now : Int) (gets : Str → Option Str)
    (lf : Str → List Str) {pages : List ObjPage} {tr : List Event}
    (hwf : ChainWF (fun p => p.isTruncated) pages)
    (h : cleanUploadFolders cfg bucket now gets lf pages = some tr) :
    ∀ b k, Event.deleteObject b k ∈ tr →
      ∃ m pre post, tr = pre ++ Event.getObject bucket m :: post ∧
        Event.deleteObject b k ∈ post ∧ justifies cfg now gets lf m k := by
  rw [cleanUploadFolders_flat cfg bucket now gets lf hwf] at h
  exact processObjs_delete_justified cfg bucket now gets lf h

/-- Witness for C6 amended at the concrete run of `c6_cex`: the delete
of the sibling marker is justified by the stale marker `kAB`. -/
theorem c6_amended_witness :
    ∃ m pre post,
      ([Event.getObject bb kAB, Event.selectFolder bb kAB, Event.deleteObject bb kAB,
        Event.deleteObject bb kABC, Event.getObject bb kABC] : List Event) =
        pre ++ Event.getObject bb m :: post ∧
      Event.deleteObject bb kABC ∈ post ∧
      justifies ⟨3, false⟩ nowCex getsCex lfCex m kABC :=
  c6_amended ⟨3, false⟩ bb nowCex getsCex lfCex
    (ChainWF.last (⟨[kAB, kABC], none, false⟩ : ObjPage) rfl) (by decide) bb kABC (by decide)

/-- Store for the C1 counterexample: one root page without common
prefixes, one flat-listing page holding the stale marker `kAB`. -/
def smC1 : StoreModel :=
  { rootPages := [⟨[], none, false⟩]
    mpuPages := fun _ => []
    abortOk := fun _ _ => true
    objPages := fun _ => [⟨[kAB], none, false⟩]
    gets := getsCex
    listFolder := lfCex }

/-- Counterexample to C1 as stated: two runs differing only in the
dry-run flag do NOT select the identical candidate set — the live run
selects one upload-folder marker (`selectFolder` appears once in its
trace) while the dry run, which skips `cleanUploadFolders` entirely
(main.go line 88), selects none. -/
theorem c1_cex :
    (mainRun ⟨3, false⟩ bb rootP nowCex smC1).map
        (fun r => (r.2.filter isSelectFolder).length) = some 1 ∧
    (mainRun ⟨3, true⟩ bb rootP nowCex smC1).map
        (fun r => (r.2.filter isSelectFolder).length) = some 0 := by
  constructor
  · decide
  · decide

/-- C1 amended: a live run and the dry run differing only in the flag
select the identical multipart-upload candidates and report the same
removal count; the dry run issues no abort or delete call and leaves any
store state unchanged; but the dry run skips the upload-folder scan
entirely, so it selects NO upload-folder candidates (the candidate sets
coincide only on the multipart side). -/
theorem c1_amended (th : Int) (bucket rootPfx : Str) (now : Int) (sm : StoreModel)
    {c : Nat} {trL : List Event}
    (h : mainRun ⟨th, false⟩ bucket rootPfx now sm = some (c, trL)) :
    ∃ trD, mainRun ⟨th, true⟩ bucket rootPfx now sm = some (c, trD) ∧
      trD.filter isSelectMPU = trL.filter isSelectMPU ∧
      trD.filter isDestructive = [] ∧
      (∀ st, applyEvents st trD = st) ∧
      trD.filter isSelectFolder = [] := by
  have hd := mainLoop_dry th bucket rootPfx now sm h
  refine ⟨trL.filter keepEv, hd, filter_keep_selectMPU trL,
    filter_keep_destructive trL, ?_, filter_keep_selectFolder trL⟩
  intro st
  apply applyEvents_id
  intro e he
  exact keepEv_not_destructive (List.mem_filter.mp he).2

/-- Witness for C1 amended at the concrete store of `c1_cex`. -/
theorem c1_amended_witness :
    ∃ trD, mainRun ⟨3, true⟩ bb rootP nowCex smC1 = some (0, trD) ∧
      trD.filter isSelectMPU =
        ([Event.callCleanUploadFolders rootP, Event.getObject bb kAB,
          Event.selectFolder bb kAB, Event.deleteObject bb kAB,
          Event.deleteObject bb kABC] : List Event).filter isSelectMPU ∧
      trD.filter isDestructive = [] ∧
      (∀ st, applyEvents st trD = st) ∧
      trD.filter isSelectFolder = [] :=
  c1_amended 3 bb rootP nowCex smC1 (by decide)

/-- Counterexample to C2 as stated: in live mode with threshold 3, a
five-hour-old upload whose abort call FAILS (the oracle answers false,
and the trace records `abortCall .. false`) still yields a removed
counter of 1 — the increment on main.go line 142 sits outside the
abort-error check, so the counter is not incremented "iff the abort
succeeds". -/
theorem c2_cex :
    cleanMPUs ⟨3, false⟩ bb (fun _ _ => false)
        [⟨[⟨"k1".toList, "u1".toList, 5 * 3600⟩], some [], false⟩] =
      some (1, [Event.selectMPU bb ("k1".toList) ("u1".toList),
                Event.abortCall bb ("k1".toList) ("u1".toList) false]) := by
  decide

/-- C2 amended: in live mode `cleanMPUs` logs the abort failure and
continues with the next record, but its removed counter counts EVERY
upload whose truncated age meets the threshold, regardless of the abort
outcome: the counter equals the number of eligible uploads across all
pages, an abort call (with the store's success flag) is issued for each
eligible upload, and the counter is identical under any two abort
oracles. -/
theorem c2_amended (th : Int) (bucket : Str) (ok ok' : Str → Str → Bool)
    {pages : List MPUPage} (hwf : ChainWF (fun p => p.isTruncated) pages)
    (hmk : ∀ p ∈ pages, p.nextKeyMarker.isSome) :
    (∃ evs, cleanMPUs ⟨th, false⟩ bucket ok pages =
        some (((pages.map (fun p => p.uploads)).flatten.filter
          (fun m => decide (th ≤ hoursSince m.elapsedSeconds))).length, evs) ∧
      ∀ m ∈ (pages.map (fun p => p.uploads)).flatten,
        th ≤ hoursSince m.elapsedSeconds →
          Event.abortCall bucket m.key m.uploadId (ok m.key m.uploadId) ∈ evs) ∧
    (cleanMPUs ⟨th, false⟩ bucket ok pages).map Prod.fst =
      (cleanMPUs ⟨th, false⟩ bucket ok' pages).map Prod.fst := by
  have h1 := cleanMPUs_flat ⟨th, false⟩ bucket ok hwf hmk
  have h2 := cleanMPUs_flat ⟨th, false⟩ bucket ok' hwf hmk
  constructor
  · refine ⟨(processMPUList ⟨th, false⟩ bucket ok
        ((pages.map (fun p => p.uploads)).flatten)).2, ?_, ?_⟩
    · rw [h1, ← processMPUList_count ⟨th, false⟩ bucket ok]
    · intro m hm hth
      exact processMPUList_abort_mem ⟨th, false⟩ bucket ok rfl hm hth
  · rw [h1, h2]
    simp [processMPUList_count]

/-- Witness for C2 amended at the `c2_cex` store: count 1 with an
always-failing oracle, abort event present, and the same count under an
always-succeeding oracle. -/
theorem c2_amended_witness :
    (∃ evs, cleanMPUs ⟨3, false⟩ bb (fun _ _ => false)
        [⟨[⟨"k1".toList, "u1".toList, 5 * 3600⟩], some [], false⟩] =
        some ((([(⟨"k1".toList, "u1".toList, 5 * 3600⟩ : MPU)] : List MPU).filter
          (fun m => decide ((3 : Int) ≤ hoursSince m.elapsedSeconds))).length, evs) ∧
      ∀ m ∈ [(⟨"k1".toList, "u1".toList, 5 * 3600⟩ : MPU)],
        (3 : Int) ≤ hoursSince m.elapsedSeconds →
          Event.abortCall bb m.key m.uploadId false ∈ evs) ∧
    (cleanMPUs ⟨3, false⟩ bb (fun _ _ => false)
        [⟨[⟨"k1".toList, "u1".toList, 5 * 3600⟩], some [], false⟩]).map Prod.fst =
      (cleanMPUs ⟨3, false⟩ bb (fun _ _ => true)
        [⟨[⟨"k1".toList, "u1".toList, 5 * 3600⟩], some [], false⟩]).map Prod.fst :=
  c2_amended 3 bb (fun _ _ => false) (fun _ _ => true)
    (ChainWF.last (⟨[⟨"k1".toList, "u1".toList, 5 * 3600⟩], some [], false⟩ : MPUPage) rfl)
    (by decide)

/-- Store bytes for the C3 counterexample: the first marker's bytes
fetch fine but do not parse; the second marker is stale and parseable. -/
def getsBad : Str → Option Str :=
  fun k => if k = kAB then some ("garbage".toList)
    else if k = kABC then some tsOld else none

/-- Counterexample to C3 as stated: a candidate marker whose bytes are
fetched successfully but fail to parse does NOT get logged-and-skipped —
`hoursSinceUploadStarted` panics (main.go line 256) and the whole scan
aborts (`none`), never reaching the second, eligible candidate. -/
theorem c3_cex :
    cleanUploadFolders ⟨3, false⟩ bb nowCex getsBad lfCex
      [⟨[kAB, kABC], none, false⟩] = none := by
  decide

/-- C3 amended: the two per-candidate error paths differ.  A candidate
whose bytes FAIL TO FETCH is logged and skipped and the scan continues
(the trace records only its get call); but a candidate whose fetched
bytes fail to parse under the fixed format panics the process — the
whole scan over any well-formed page sequence containing such a
candidate returns `none`, a process abort, not a per-item skip. -/
theorem c3_amended :
    (∀ (cfg : Config) (bucket : Str) (now : Int) (gets : Str → Option Str)
        (lf : Str → List Str) (pages : List ObjPage) (k : Str) (content : Str),
      ChainWF (fun p => p.isTruncated) pages →
      k ∈ (pages.map (fun p => p.contents)).flatten →
      candidateMarker k = true →
      gets k = some content → parseTimeFromStream content = none →
      cleanUploadFolders cfg bucket now gets lf pages = none) ∧
    (∀ (cfg : Config) (bucket : Str) (now : Int) (gets : Str → Option Str)
        (lf : Str → List Str) (k : Str) (rest : List Str),
      candidateMarker k = true → gets k = none →
      processObjs cfg bucket now gets lf (k :: rest) =
        (processObjs cfg bucket now gets lf rest).map
          (fun tr => Event.getObject bucket k :: tr)) := by
  constructor
  · intro cfg bucket now gets lf pages k content hwf hm hc hg hp
    rw [cleanUploadFolders_flat cfg bucket now gets lf hwf]
    exact processObjs_none_of_panic cfg bucket now gets lf hm hc
      (by simp [hoursSinceUploadStarted, hg, hp])
  · intro cfg bucket now gets lf k rest hc hg
    exact processObjs_cons_geterr cfg bucket now gets lf rest hc
      (by simp [hoursSinceUploadStarted, hg])

/-- Witness for C3 amended at the `c3_cex` store: the parse-failing
candidate aborts the scan, and a fetch-failing candidate is skipped with
the scan continuing. -/
theorem c3_amended_witness :
    cleanUploadFolders ⟨3, false⟩ bb nowCex getsBad lfCex
        [⟨[kAB, kABC], none, false⟩] = none ∧
    processObjs ⟨3, false⟩ bb nowCex (fun _ => none) lfCex (kAB :: [kABC]) =
      (processObjs ⟨3, false⟩ bb nowCex (fun _ => none) lfCex [kABC]).map
        (fun tr => Event.getObject bb kAB :: tr) :=
  ⟨c3_amended.1 ⟨3, false⟩ bb nowCex getsBad lfCex [⟨[kAB, kABC], none, false⟩]
      kAB ("garbage".toList)
      (ChainWF.last (⟨[kAB, kABC], none, false⟩ : ObjPage) rfl)
      (by decide) (by decide) (by decide) (by decide),
   c3_amended.2 ⟨3, false⟩ bb nowCex (fun _ => none) lfCex kAB [kABC]
      (by decide) rfl⟩

/-- First repository common prefix of the C4 counterexample. -/
def p1 : Str := "root/p1/".toList

/-- Second repository common prefix of the C4 counterexample. -/
def p2 : Str := "root/p2/".toList

/-- Store for the C4 counterexample: one root page with two common
prefixes, empty multipart and flat listings. -/
def smC4 : StoreModel :=
  { rootPages := [⟨[p1, p2], none, false⟩]
    mpuPages := fun _ => [⟨[], some [], false⟩]
    abortOk := fun _ _ => true
    objPages := fun _ => [⟨[], none, false⟩]
    gets := fun _ => none
    listFolder := fun _ => [] }

/-- Counterexample to C4 as stated: on a page with two common prefixes
the driver invokes the Multipart-Upload Reaper once per prefix, but the
Upload-Folder Reaper only ONCE — after the whole page, with the ROOT
listing prefix `*objs.Prefix` (main.go lines 87-89), which equals
neither common-prefix entry. -/
theorem c4_cex :
    mainRun ⟨3, false⟩ bb rootP nowCex smC4 =
      some (0, [Event.callCleanMPUs p1, Event.callCleanMPUs p2,
                Event.callCleanUploadFolders rootP]) ∧
    rootP ≠ p1 ∧ rootP ≠ p2 := by
  refine ⟨by decide, by decide, by decide⟩

/-- C4 amended: over a well-formed root listing, the driver invokes the
Multipart-Upload Reaper exactly once per common-prefix entry, in page
order, with that entry as the prefix; the Upload-Folder Reaper is
instead invoked exactly once per PAGE, always with the root listing
prefix, and only when dry-run is off. -/
theorem c4_amended (cfg : Config) (bucket rootPfx : Str) (now : Int) (sm : StoreModel)
    {pages : List RootPage} {c : Nat} {tr : List Event}
    (hwf : ChainWF (fun p => p.isTruncated) pages)
    (h : mainLoop cfg bucket rootPfx now sm pages = some (c, tr)) :
    tr.filterMap cpArg = (pages.map (fun p => p.commonPrefixes)).flatten ∧
    tr.filterMap folderArg =
      (if cfg.dryRun then [] else pages.map (fun _ => rootPfx)) :=
  ⟨mainLoop_cpArg cfg bucket rootPfx now sm hwf h,
   mainLoop_folderArg cfg bucket rootPfx now sm hwf h⟩

/-- Witness for C4 amended at the `c4_cex` store. -/
theorem c4_amended_witness :
    ([Event.callCleanMPUs p1, Event.callCleanMPUs p2,
      Event.callCleanUploadFolders rootP] : List Event).filterMap cpArg =
        ([(⟨[p1, p2], none, false⟩ : RootPage)].map (fun p => p.commonPrefixes)).flatten ∧
    ([Event.callCleanMPUs p1, Event.callCleanMPUs p2,
      Event.callCleanUploadFolders rootP] : List Event).filterMap folderArg =
        (if (⟨3, false⟩ : Config).dryRun then []
         else [(⟨[p1, p2], none, false⟩ : RootPage)].map (fun _ => rootP)) :=
  @c4_amended ⟨3, false⟩ bb rootP nowCex smC4 [⟨[p1, p2], none, false⟩] 0
    [Event.callCleanMPUs p1, Event.callCleanMPUs p2, Event.callCleanUploadFolders rootP]
    (ChainWF.last (⟨[p1, p2], none, false⟩ : RootPage) rfl) (by decide)
